import Mathlib

/-!
# Verification of the fuzzy duplicate grouper

Shallow embedding of `src/data_preprocessing/handle_duplicate_values.py`:
the exact duplicate remover `handle_duplicate_values_drop` (delegating to
pandas `duplicated` / `drop_duplicates`) and the fuzzy duplicate grouper
`handle_duplicate_values_fuzzy` (pairwise string similarity over
`itertools.combinations(data.index, 2)`, incremental cluster lists,
drop of all non-minimal cluster members).

Tables are modelled as a column-name list together with a row list, each
row a list of string cells (Python coerces every compared cell with
`str(...)`).  Row labels are the 0-based positions assigned at load time.
Raised exceptions (`KeyError` on a missing column, `ZeroDivisionError`
when the comparison-column list is empty) are modelled with `Except`.
-/

deriving instance DecidableEq for Except

namespace HandleDup

/-- A cell row: the list of string-coerced cell values, aligned with the
column list of its table. -/
abbrev Row := List String

/-- Model of a pandas `DataFrame` right after `pd.read_csv`: named columns
and rows labelled by their 0-based position. -/
structure Table where
  cols : List String
  rows : List Row
deriving DecidableEq, Repr

/-- Well-formedness of a data frame: each row has one cell per column. -/
def Wf (t : Table) : Prop := ∀ r ∈ t.rows, r.length = t.cols.length

instance (t : Table) : Decidable (Wf t) := by
  unfold Wf; infer_instance

/-- `data.loc[i, c]`: cell lookup by row label and column name; `none`
models the `KeyError`/`IndexError` a bad label or column raises. -/
def cellValue (t : Table) (i : ℕ) (c : String) : Option String :=
  (t.cols.indexOf? c).bind fun k => (t.rows.get? i).bind fun r => r.get? k

/-- `str(x).lower().strip()` applied to a cell before comparison:
lowercase every character, then remove leading and trailing whitespace. -/
def normalize (s : String) : String :=
  ⟨(((s.data.map Char.toLower).dropWhile Char.isWhitespace).reverse.dropWhile
      Char.isWhitespace).reverse⟩

/-- Longest common subsequence length, with explicit fuel so that the
recursion is structural (each step consumes at least one list element, so
fuel `|a| + |b|` always suffices and the value is the true LCS length). -/
def lcsF : ℕ → List Char → List Char → ℕ
  | 0, _, _ => 0
  | _ + 1, [], _ => 0
  | _ + 1, _ :: _, [] => 0
  | f + 1, a :: as, b :: bs =>
    if a = b then 1 + lcsF f as bs
    else max (lcsF f (a :: as) bs) (lcsF f as (b :: bs))

/-- Longest common subsequence length of two character lists. -/
def lcsL (a b : List Char) : ℕ := lcsF (a.length + b.length) a b

/-- Model of rapidfuzz `fuzz.ratio`: the normalized indel similarity
`100 * (1 - dist/(|a|+|b|)) = 200 * lcs(a,b) / (|a|+|b|)`, with two empty
strings scoring `100`. -/
def fuzzSim (a b : String) : ℚ :=
  if a.length + b.length = 0 then 100
  else 200 * (lcsL a.data b.data : ℚ) / (a.length + b.length)

/-- The inner `for col in comparison_columns` loop of one pair comparison:
the per-column similarity list, or `none` for the `KeyError` a missing
column raises at `data.loc[i, col]`. -/
def colSims (sim : String → String → ℚ) (t : Table) (cols : List String)
    (i j : ℕ) : Option (List ℚ) :=
  cols.mapM fun c => do
    let a ← cellValue t i c
    let b ← cellValue t j c
    pure (sim (normalize a) (normalize b))

/-- `sum(column_similarity_ratios)/len(column_similarity_ratios)`:
the row-pair average similarity; `ZeroDivisionError` on an empty
comparison-column list, `KeyError` on a missing column. -/
def pairAvg (sim : String → String → ℚ) (t : Table) (cols : List String)
    (i j : ℕ) : Except String ℚ :=
  match colSims sim t cols i j with
  | none => .error "KeyError"
  | some [] => .error "ZeroDivisionError"
  | some rs => .ok (rs.sum / rs.length)

/-- One accepted pair updates the cluster list: scan the existing sets in
order, add both indices to the first set containing either; append a new
two-element set when none matches (this also covers the initial empty
list). -/
def addPair (i j : ℕ) : List (Finset ℕ) → List (Finset ℕ)
  | [] => [insert i {j}]
  | c :: rest =>
    if i ∈ c ∨ j ∈ c then insert i (insert j c) :: rest
    else c :: addPair i j rest

/-- One iteration of the pair loop: compute the average similarity and,
when it lies in the inclusive acceptance range, feed the pair to the
cluster list. -/
def stepPair (sim : String → String → ℚ) (lo hi : ℚ) (t : Table)
    (cols : List String) (st : List (Finset ℕ)) (p : ℕ × ℕ) :
    Except String (List (Finset ℕ)) := do
  let avg ← pairAvg sim t cols p.1 p.2
  if lo ≤ avg ∧ avg ≤ hi then pure (addPair p.1 p.2 st) else pure st

/-- The whole pair loop: fold `stepPair` over the pair enumeration,
starting from the empty cluster list; the first raised error aborts. -/
def buildClusters (sim : String → String → ℚ) (lo hi : ℚ) (t : Table)
    (cols : List String) (pairs : List (ℕ × ℕ)) :
    Except String (List (Finset ℕ)) :=
  pairs.foldlM (stepPair sim lo hi t cols) []

/-- `itertools.combinations(range(n), 2)`: all pairs `(i, j)` with
`i < j < n` in lexicographic order. -/
def pairsUpTo (n : ℕ) : List (ℕ × ℕ) :=
  (List.range n).flatMap fun i => (List.range' (i + 1) (n - (i + 1))).map fun j => (i, j)

/-- `sorted(list(d_set))[0]`: the smallest member of a duplicate set (`0`
for the empty set, which never occurs). -/
def clusterMin (c : Finset ℕ) : ℕ := WithBot.unbot' 0 c.min

/-- The drop set: every cluster member except each cluster's minimum. -/
def dropSetOf (clusters : List (Finset ℕ)) : Finset ℕ :=
  clusters.foldl (fun acc c => acc ∪ c.erase (clusterMin c)) ∅

/-- The row labels surviving a drop set, in original order. -/
def keptIdx (n : ℕ) (ds : Finset ℕ) : List ℕ :=
  (List.range n).filter fun k => decide (k ∉ ds)

/-- `subset if subset else data.columns`: Python truthiness sends both
`None` and the empty list to all columns. -/
def resolveColumns (t : Table) (subset : Option (List String)) : List String :=
  match subset with
  | none => t.cols
  | some [] => t.cols
  | some cs => cs

/-- Default acceptance range `(90, 100)` when none is passed. -/
def resolveRange (rrange : Option (ℚ × ℚ)) : ℚ × ℚ := rrange.getD (90, 100)

/-- `handle_duplicate_values_fuzzy`: enumerate pairs, cluster the accepted
ones, and drop every non-minimal member of every cluster
(`data.drop(data_duplicated_index_drop)` keeps the remaining rows in
order). -/
def handle_duplicate_values_fuzzy (sim : String → String → ℚ) (t : Table)
    (subset : Option (List String)) (rrange : Option (ℚ × ℚ)) :
    Except String Table :=
  let rr := resolveRange rrange
  let cols := resolveColumns t subset
  match buildClusters sim rr.1 rr.2 t cols (pairsUpTo t.rows.length) with
  | .error e => .error e
  | .ok clusters =>
      .ok ⟨t.cols, (keptIdx t.rows.length (dropSetOf clusters)).map
        fun k => t.rows.getD k []⟩

/-- The projection of row label `i` onto a column list, as compared by
pandas `duplicated`. -/
def rowKey (t : Table) (cols : List String) (i : ℕ) : List (Option String) :=
  cols.map fun c => cellValue t i c

/-- pandas `duplicated(keep='first')` at position `i`: some earlier row
has the same projection. -/
def dupFirst (t : Table) (cols : List String) (i : ℕ) : Bool :=
  (List.range i).any fun j => decide (rowKey t cols j = rowKey t cols i)

/-- `handle_duplicate_values_drop`: pandas `drop_duplicates(subset)`.
pandas returns an empty frame unchanged before validating the subset;
on a non-empty frame a subset column absent from the table raises
`KeyError`, and an explicitly empty subset list raises `ValueError`. -/
def handle_duplicate_values_drop (t : Table) (subset : Option (List String)) :
    Except String Table :=
  if t.rows.length = 0 ∨ t.cols.length = 0 then .ok t
  else
    let cols := subset.getD t.cols
    if cols.isEmpty then .error "ValueError"
    else if cols.all fun c => decide (c ∈ t.cols) then
      .ok ⟨t.cols, ((List.range t.rows.length).filter fun i => !dupFirst t cols i).map
        fun k => t.rows.getD k []⟩
    else .error "KeyError"

/-! ## Pure-fold reformulation of the pair loop

`stepPair` raises exactly when `pairAvg` does, independently of the cluster
state, so a successful run of `buildClusters` coincides with a pure fold
over a boolean acceptance function. -/

/-- Acceptance of a pair as decided by the range check in the loop. -/
def accOf (sim : String → String → ℚ) (lo hi : ℚ) (t : Table)
    (cols : List String) (i j : ℕ) : Bool :=
  match pairAvg sim t cols i j with
  | .ok q => decide (lo ≤ q ∧ q ≤ hi)
  | .error _ => false

/-- One pure step of the cluster fold. -/
def accStep (acc : ℕ → ℕ → Bool) (st : List (Finset ℕ)) (p : ℕ × ℕ) :
    List (Finset ℕ) :=
  if acc p.1 p.2 then addPair p.1 p.2 st else st

/-- The pure cluster fold. -/
def accFold (acc : ℕ → ℕ → Bool) (pairs : List (ℕ × ℕ))
    (init : List (Finset ℕ)) : List (Finset ℕ) :=
  pairs.foldl (accStep acc) init

theorem ok_bind {ε α β : Type} (a : α) (f : α → Except ε β) :
    (Except.ok a : Except ε α) >>= f = f a := rfl

theorem error_bind {ε α β : Type} (e : ε) (f : α → Except ε β) :
    (Except.error e : Except ε α) >>= f = .error e := rfl

theorem stepPair_eq_ok {sim lo hi t cols st p q}
    (h : pairAvg sim t cols p.1 p.2 = .ok q) :
    stepPair sim lo hi t cols st p =
      .ok (accStep (accOf sim lo hi t cols) st p) := by
  rw [stepPair, accStep, accOf, h, ok_bind]
  by_cases hq : lo ≤ q ∧ q ≤ hi <;> simp [hq, pure, Except.pure]

theorem stepPair_eq_error {sim lo hi t cols st p e}
    (h : pairAvg sim t cols p.1 p.2 = .error e) :
    stepPair sim lo hi t cols st p = .error e := by
  rw [stepPair, h, error_bind]

theorem foldlM_step_ok {sim lo hi t cols} :
    ∀ (pairs : List (ℕ × ℕ)) (init out : List (Finset ℕ)),
      pairs.foldlM (stepPair sim lo hi t cols) init = .ok out →
      (∀ p ∈ pairs, ∃ q, pairAvg sim t cols p.1 p.2 = .ok q) ∧
        out = accFold (accOf sim lo hi t cols) pairs init := by
  intro pairs
  induction pairs with
  | nil =>
    intro init out h
    simp only [List.foldlM, pure, Except.pure, Except.ok.injEq] at h
    simp [accFold, h]
  | cons p ps ih =>
    intro init out h
    rcases hp : pairAvg sim t cols p.1 p.2 with e | q
    · rw [List.foldlM_cons, stepPair_eq_error hp, error_bind] at h
      exact absurd h (by simp)
    · rw [List.foldlM_cons, stepPair_eq_ok hp, ok_bind] at h
      obtain ⟨hall, hout⟩ := ih _ _ h
      refine ⟨?_, ?_⟩
      · intro q' hq'
        rcases List.mem_cons.1 hq' with rfl | hq'
        · exact ⟨q, hp⟩
        · exact hall _ hq'
      · simpa [accFold] using hout

theorem foldlM_step_ok_of {sim lo hi t cols} :
    ∀ (pairs : List (ℕ × ℕ)) (init : List (Finset ℕ)),
      (∀ p ∈ pairs, ∃ q, pairAvg sim t cols p.1 p.2 = .ok q) →
      pairs.foldlM (stepPair sim lo hi t cols) init =
        .ok (accFold (accOf sim lo hi t cols) pairs init) := by
  intro pairs
  induction pairs with
  | nil => intro init _; simp [accFold, List.foldlM, pure, Except.pure]
  | cons p ps ih =>
    intro init hall
    obtain ⟨q, hp⟩ := hall p (by simp)
    rw [List.foldlM_cons, stepPair_eq_ok hp, ok_bind]
    rw [ih _ fun p' hp' => hall p' (by simp [hp'])]
    simp [accFold]

theorem buildClusters_ok {sim lo hi t cols pairs out}
    (h : buildClusters sim lo hi t cols pairs = .ok out) :
    (∀ p ∈ pairs, ∃ q, pairAvg sim t cols p.1 p.2 = .ok q) ∧
      out = accFold (accOf sim lo hi t cols) pairs [] :=
  foldlM_step_ok pairs [] out h

theorem buildClusters_ok_of {sim lo hi t cols pairs}
    (h : ∀ p ∈ pairs, ∃ q, pairAvg sim t cols p.1 p.2 = .ok q) :
    buildClusters sim lo hi t cols pairs =
      .ok (accFold (accOf sim lo hi t cols) pairs []) :=
  foldlM_step_ok_of pairs [] h

/-! ## Elementary properties of `addPair`, `clusterMin`, `dropSetOf`,
`keptIdx` -/

theorem addPair_nil (i j : ℕ) : addPair i j [] = [insert i {j}] := rfl

theorem addPair_cons (i j : ℕ) (c : Finset ℕ) (rest : List (Finset ℕ)) :
    addPair i j (c :: rest) =
      if i ∈ c ∨ j ∈ c then insert i (insert j c) :: rest
      else c :: addPair i j rest := rfl

theorem addPair_of_not_found {i j : ℕ} :
    ∀ {L : List (Finset ℕ)}, (∀ c ∈ L, i ∉ c ∧ j ∉ c) →
      addPair i j L = L ++ [insert i {j}] := by
  intro L
  induction L with
  | nil => intro _; rfl
  | cons c rest ih =>
    intro h
    obtain ⟨hi, hj⟩ := h c (by simp)
    rw [addPair_cons, if_neg (by tauto), ih fun c' hc' => h c' (by simp [hc'])]
    simp

theorem addPair_of_split {i j : ℕ} :
    ∀ {L₁ : List (Finset ℕ)} {c : Finset ℕ} {L₂ : List (Finset ℕ)},
      (∀ c' ∈ L₁, i ∉ c' ∧ j ∉ c') → (i ∈ c ∨ j ∈ c) →
      addPair i j (L₁ ++ c :: L₂) = L₁ ++ insert i (insert j c) :: L₂ := by
  intro L₁
  induction L₁ with
  | nil =>
    intro c L₂ _ hc
    rw [List.nil_append, addPair_cons, if_pos hc, List.nil_append]
  | cons d rest ih =>
    intro c L₂ h hc
    obtain ⟨hi, hj⟩ := h d (by simp)
    rw [List.cons_append, addPair_cons, if_neg (by tauto),
      ih (fun c' hc' => h c' (by simp [hc'])) hc]
    simp

theorem addPair_cases (i j : ℕ) :
    ∀ (L : List (Finset ℕ)),
      (∀ c ∈ L, i ∉ c ∧ j ∉ c) ∨
        ∃ L₁ c L₂, L = L₁ ++ c :: L₂ ∧ (∀ c' ∈ L₁, i ∉ c' ∧ j ∉ c') ∧
          (i ∈ c ∨ j ∈ c) := by
  intro L
  induction L with
  | nil => exact .inl (by simp)
  | cons d rest ih =>
    by_cases hd : i ∈ d ∨ j ∈ d
    · exact .inr ⟨[], d, rest, by simp, by simp, hd⟩
    · rcases ih with h | ⟨L₁, c, L₂, rfl, h₁, hc⟩
      · refine .inl ?_
        intro c hc
        rcases List.mem_cons.1 hc with rfl | hc
        · tauto
        · exact h c hc
      · refine .inr ⟨d :: L₁, c, L₂, by simp, ?_, hc⟩
        intro c' hc'
        rcases List.mem_cons.1 hc' with rfl | hc'
        · tauto
        · exact h₁ c' hc'

theorem clusterMin_spec {c : Finset ℕ} (hc : c.Nonempty) :
    clusterMin c ∈ c ∧ ∀ x ∈ c, clusterMin c ≤ x := by
  have heq : clusterMin c = c.min' hc := by
    rw [clusterMin, ← Finset.coe_min' hc]
    rfl
  rw [heq]
  exact ⟨Finset.min'_mem c hc, fun x hx => Finset.min'_le c x hx⟩

theorem mem_foldl_union (x : ℕ) (f : Finset ℕ → Finset ℕ) :
    ∀ (L : List (Finset ℕ)) (init : Finset ℕ),
      (x ∈ L.foldl (fun acc c => acc ∪ f c) init ↔
        x ∈ init ∨ ∃ c ∈ L, x ∈ f c) := by
  intro L
  induction L with
  | nil => simp
  | cons c rest ih =>
    intro init
    rw [List.foldl_cons, ih]
    simp only [Finset.mem_union, List.mem_cons]
    constructor
    · rintro ((h | h) | ⟨c', hc', h⟩)
      · exact .inl h
      · exact .inr ⟨c, .inl rfl, h⟩
      · exact .inr ⟨c', .inr hc', h⟩
    · rintro (h | ⟨c', (rfl | hc'), h⟩)
      · exact .inl (.inl h)
      · exact .inl (.inr h)
      · exact .inr ⟨c', hc', h⟩

theorem mem_dropSetOf {x : ℕ} {L : List (Finset ℕ)} :
    x ∈ dropSetOf L ↔ ∃ c ∈ L, x ∈ c ∧ x ≠ clusterMin c := by
  rw [dropSetOf, mem_foldl_union]
  simp [Finset.mem_erase, and_comm]

theorem mem_smaller_iff_ne_min {x : ℕ} {c : Finset ℕ} (hx : x ∈ c) :
    (∃ y ∈ c, y < x) ↔ x ≠ clusterMin c := by
  obtain ⟨hmem, hle⟩ := clusterMin_spec ⟨x, hx⟩
  constructor
  · rintro ⟨y, hy, hlt⟩ rfl
    exact absurd (hle y hy) (by omega)
  · intro hne
    exact ⟨clusterMin c, hmem, lt_of_le_of_ne (hle x hx) (Ne.symm hne)⟩

theorem mem_keptIdx {k n : ℕ} {ds : Finset ℕ} :
    k ∈ keptIdx n ds ↔ k < n ∧ k ∉ ds := by
  simp [keptIdx, List.mem_filter, List.mem_range]

theorem keptIdx_empty (n : ℕ) : keptIdx n ∅ = List.range n := by
  simp [keptIdx]

theorem map_getD_range (l : List Row) :
    (List.range l.length).map (fun k => l.getD k []) = l := by
  apply List.ext_get
  · simp
  · intro i h₁ h₂
    simp only [List.get_map, List.get_range]
    exact List.getD_eq_get l [] _

theorem keptIdx_sublist (n : ℕ) (ds : Finset ℕ) :
    (keptIdx n ds).Sublist (List.range n) :=
  List.filter_sublist _

theorem keptIdx_anti {n : ℕ} {ds₁ ds₂ : Finset ℕ} (h : ds₁ ⊆ ds₂) :
    (keptIdx n ds₂).length ≤ (keptIdx n ds₁).length := by
  unfold keptIdx
  rw [← List.countP_eq_length_filter, ← List.countP_eq_length_filter]
  apply List.countP_mono_left
  intro k _ hk
  simp only [decide_eq_true_eq] at hk ⊢
  exact fun hmem => hk (h hmem)

theorem keptIdx_length_lt {n x : ℕ} {ds : Finset ℕ} (hx : x < n)
    (hmem : x ∈ ds) : (keptIdx n ds).length < n := by
  have hsub : (keptIdx n ds).Sublist (List.range n) := keptIdx_sublist n ds
  have hle : (keptIdx n ds).length ≤ n := by
    simpa using hsub.length_le
  rcases Nat.lt_or_ge (keptIdx n ds).length n with h | h
  · exact h
  · exfalso
    have := hsub.eq_of_length (by simpa using le_antisymm (by simpa using hsub.length_le) h)
    have hxk : x ∈ keptIdx n ds := this ▸ List.mem_range.2 hx
    exact (mem_keptIdx.1 hxk).2 hmem

/-! ## Closed-form characterization of the drop set

The loop processes pairs `(b, w)` in lexicographic order.  We track, for a
current outer index `b` and inner index `j` (meaning: all pairs `(u, w)`
with `u < b`, and the pairs `(b, w)` with `w < j`, have been handled), a
four-part invariant of the cluster list, whose key component states that
"`x` shares a cluster with a smaller index" is equivalent to a closed
formula `Phi` over the accepted pairs alone. -/

/-- Pair `(u, w)` is an accepted pair already processed at loop position
`(b, j)`. -/
def procA (acc : ℕ → ℕ → Bool) (n b j u w : ℕ) : Prop :=
  u < w ∧ w < n ∧ acc u w = true ∧ (u < b ∨ (u = b ∧ w < j))

/-- Closed formula for "`x` shares a cluster with a smaller index" at loop
position `(b, j)`: either an accepted processed pair `(v, x)` with `v < x`
exists, or some accepted processed pair `(x, w)` joined `x` to a cluster
already holding `w` together with some `u < x` from the accepted processed
pair `(u, w)`. -/
def Phi (acc : ℕ → ℕ → Bool) (n b j x : ℕ) : Prop :=
  (∃ v, procA acc n b j v x) ∨
    (∃ w, procA acc n b j x w ∧ ∃ u, u < x ∧ procA acc n b j u w)

/-- The cluster-loop invariant at position `(b, j)`:
1. every cluster member arrived with its accepted pair, both ends in the
   cluster;
2. both ends of every processed accepted pair share some cluster;
3. sharing a cluster with a smaller index is `Phi`;
4. the list splits into clusters each containing an index `< b`, followed
   by at most one cluster containing `b`. -/
def Inv (acc : ℕ → ℕ → Bool) (n b j : ℕ) (L : List (Finset ℕ)) : Prop :=
  (∀ T ∈ L, ∀ m ∈ T, ∃ u w, procA acc n b j u w ∧ (m = u ∨ m = w) ∧
    u ∈ T ∧ w ∈ T) ∧
  (∀ u w, procA acc n b j u w → ∃ T ∈ L, u ∈ T ∧ w ∈ T) ∧
  (∀ x, (∃ T ∈ L, x ∈ T ∧ ∃ y ∈ T, y < x) ↔ Phi acc n b j x) ∧
  (∃ Lp Lf, L = Lp ++ Lf ∧ (∀ c ∈ Lp, ∃ v ∈ c, v < b) ∧
    (Lf = [] ∨ ∃ F, Lf = [F] ∧ b ∈ F))

theorem procA_mono {acc n b j u w} (h : procA acc n b j u w) :
    procA acc n b (j + 1) u w := by
  obtain ⟨h1, h2, h3, h4⟩ := h
  exact ⟨h1, h2, h3, by omega⟩

theorem procA_succ {acc : ℕ → ℕ → Bool} {n b j u w : ℕ} :
    procA acc n b (j + 1) u w ↔
      procA acc n b j u w ∨ (u = b ∧ w = j ∧ b < j ∧ j < n ∧ acc b j = true) := by
  constructor
  · rintro ⟨h1, h2, h3, h4⟩
    rcases h4 with h4 | ⟨rfl, h5⟩
    · exact .inl ⟨h1, h2, h3, .inl h4⟩
    · rcases Nat.lt_or_ge w j with hw | hw
      · exact .inl ⟨h1, h2, h3, .inr ⟨rfl, hw⟩⟩
      · have : w = j := by omega
        subst this
        exact .inr ⟨rfl, rfl, h1, h2, h3⟩
  · rintro (⟨h1, h2, h3, h4⟩ | ⟨rfl, rfl, h1, h2, h3⟩)
    · exact ⟨h1, h2, h3, by omega⟩
    · exact ⟨h1, h2, h3, .inr ⟨rfl, by omega⟩⟩

theorem procA_succ_reject {acc : ℕ → ℕ → Bool} {n b j u w : ℕ}
    (hacc : acc b j = false) :
    procA acc n b (j + 1) u w ↔ procA acc n b j u w := by
  rw [procA_succ]
  constructor
  · rintro (h | ⟨rfl, rfl, _, _, h⟩)
    · exact h
    · rw [hacc] at h; cases h
  · exact .inl

theorem procA_shift {acc : ℕ → ℕ → Bool} {n b u w : ℕ} :
    procA acc n b n u w ↔ procA acc n (b + 1) (b + 2) u w := by
  constructor
  · rintro ⟨h1, h2, h3, h4⟩
    exact ⟨h1, h2, h3, by omega⟩
  · rintro ⟨h1, h2, h3, h4⟩
    refine ⟨h1, h2, h3, ?_⟩
    omega

theorem procA_zero {acc : ℕ → ℕ → Bool} {n u w : ℕ} :
    ¬ procA acc n 0 1 u w := by
  rintro ⟨h1, _, _, h4⟩
  omega

theorem procA_final {acc : ℕ → ℕ → Bool} {n u w : ℕ} :
    procA acc n n (n + 1) u w ↔ u < w ∧ w < n ∧ acc u w = true := by
  constructor
  · rintro ⟨h1, h2, h3, _⟩
    exact ⟨h1, h2, h3⟩
  · rintro ⟨h1, h2, h3⟩
    exact ⟨h1, h2, h3, .inl (by omega)⟩

theorem Phi_succ_accept {acc : ℕ → ℕ → Bool} {n b j : ℕ} (hbj : b < j)
    (hjn : j < n) (hacc : acc b j = true) (x : ℕ) :
    Phi acc n b (j + 1) x ↔
      Phi acc n b j x ∨ x = j ∨
        (x = b ∧ ∃ u, u < b ∧ procA acc n b j u j) := by
  have hnew : procA acc n b (j + 1) b j := ⟨hbj, hjn, hacc, .inr ⟨rfl, by omega⟩⟩
  constructor
  · rintro (⟨v, hv⟩ | ⟨w, hxw, u, hu, huw⟩)
    · rcases procA_succ.1 hv with hv | ⟨rfl, rfl, _⟩
      · exact .inl (.inl ⟨v, hv⟩)
      · exact .inr (.inl rfl)
    · rcases procA_succ.1 hxw with hxw | ⟨rfl, rfl, _⟩
      · rcases procA_succ.1 huw with huw | ⟨rfl, rfl, _, _, _⟩
        · exact .inl (.inr ⟨w, hxw, u, hu, huw⟩)
        · -- the inner witness would be the new pair `(b, j)` with `b < x`,
          -- but then `procA x j` forces `x ≤ b`, a contradiction
          obtain ⟨_, _, _, h4⟩ := hxw
          omega
      · rcases procA_succ.1 huw with huw | ⟨_, _, _⟩
        · exact .inr (.inr ⟨rfl, u, hu, huw⟩)
        · omega
  · rintro (h | rfl | ⟨rfl, u, hu, huj⟩)
    · rcases h with ⟨v, hv⟩ | ⟨w, hxw, u, hu, huw⟩
      · exact .inl ⟨v, procA_mono hv⟩
      · exact .inr ⟨w, procA_mono hxw, u, hu, procA_mono huw⟩
    · exact .inl ⟨b, hnew⟩
    · exact .inr ⟨j, hnew, u, hu, procA_mono huj⟩

theorem split_concat {α : Type} [DecidableEq α] :
    ∀ (A : List α) (c : α) (B C : List α) (F : α),
      A ++ c :: B = C ++ [F] → c ∉ C → A = C ∧ c = F ∧ B = [] := by
  intro A
  induction A with
  | nil =>
    intro c B C F h hc
    cases C with
    | nil =>
      simp only [List.nil_append] at h
      obtain ⟨rfl, hB⟩ := List.cons.inj h
      exact ⟨rfl, rfl, hB⟩
    | cons d C' =>
      obtain ⟨rfl, _⟩ := List.cons.inj h
      exact absurd (by simp) hc
  | cons a A' ih =>
    intro c B C F h hc
    cases C with
    | nil =>
      simp only [List.nil_append] at h
      obtain ⟨rfl, h2⟩ := List.cons.inj h
      exact absurd h2 (by simp)
    | cons d C' =>
      obtain ⟨rfl, h2⟩ := List.cons.inj h
      obtain ⟨rfl, h3, h4⟩ := ih c B C' F h2 fun hmem => hc (by simp [hmem])
      exact ⟨rfl, h3, h4⟩

theorem Inv_step {acc : ℕ → ℕ → Bool} {n b j : ℕ} {L : List (Finset ℕ)}
    (hbj : b < j) (hjn : j < n) (h : Inv acc n b j L) :
    Inv acc n b (j + 1) (accStep acc L (b, j)) := by
  obtain ⟨hPM, hCP, hDOM, hLAST⟩ := h
  rcases hacc : acc b j with _ | _
  · -- rejected pair: the state and the processed accepted pairs are unchanged
    have hstep : accStep acc L (b, j) = L := by simp [accStep, hacc]
    rw [hstep]
    refine ⟨?_, ?_, ?_, hLAST⟩
    · simpa only [procA_succ_reject hacc] using hPM
    · simpa only [procA_succ_reject hacc] using hCP
    · simpa only [Phi, procA_succ_reject hacc] using hDOM
  · -- accepted pair
    have hstep : accStep acc L (b, j) = addPair b j L := by simp [accStep, hacc]
    rw [hstep]
    have hnewp : procA acc n b (j + 1) b j := ⟨hbj, hjn, hacc, .inr ⟨rfl, by omega⟩⟩
    have factA : ∀ T ∈ L, j ∈ T → ∃ u, u ∈ T ∧ u < b ∧ procA acc n b j u j := by
      intro T hT hj
      obtain ⟨u, w, hp, hmw, huT, hwT⟩ := hPM T hT j hj
      obtain ⟨h1, h2, h3, h4⟩ := hp
      rcases hmw with rfl | rfl
      · rcases h4 with h4 | ⟨h4, _⟩ <;> omega
      · have hub : u < b := by rcases h4 with h4 | ⟨_, h5⟩ <;> omega
        exact ⟨u, huT, hub, ⟨h1, h2, h3, h4⟩⟩
    rcases addPair_cases b j L with hNF | ⟨L₁, c, L₂, rfl, hclean, hc⟩
    · -- no cluster holds b or j: a fresh cluster {b, j} is appended
      rw [addPair_of_not_found hNF]
      refine ⟨?_, ?_, ?_, ?_⟩
      · intro T hT m hm
        rcases List.mem_append.1 hT with hT | hT
        · obtain ⟨u, w, hp, hmw, hu, hw⟩ := hPM T hT m hm
          exact ⟨u, w, procA_mono hp, hmw, hu, hw⟩
        · have hTeq : T = insert b {j} := by simpa using hT
          subst hTeq
          rcases Finset.mem_insert.1 hm with hmb | hm
          · exact ⟨b, j, hnewp, .inl hmb, by simp, by simp⟩
          · have hmj : m = j := by simpa using hm
            exact ⟨b, j, hnewp, .inr hmj, by simp, by simp⟩
      · intro u w hp
        rcases procA_succ.1 hp with hp | ⟨hub, hwj, _⟩
        · obtain ⟨T, hT, hu, hw⟩ := hCP u w hp
          exact ⟨T, by simp [hT], hu, hw⟩
        · exact ⟨insert b {j}, by simp, by simp [hub], by simp [hwj]⟩
      · intro x
        rw [Phi_succ_accept hbj hjn hacc]
        constructor
        · rintro ⟨T, hT, hxT, y, hyT, hyx⟩
          rcases List.mem_append.1 hT with hT | hT
          · exact .inl ((hDOM x).1 ⟨T, hT, hxT, y, hyT, hyx⟩)
          · have hTeq : T = insert b {j} := by simpa using hT
            subst hTeq
            have hx : x = b ∨ x = j := by simpa using hxT
            have hy : y = b ∨ y = j := by simpa using hyT
            rcases hx with hxb | hxj
            · rcases hy with hyb | hyj <;> omega
            · exact .inr (.inl hxj)
        · rintro (hphi | hxj | ⟨hxb, u, hu, huj⟩)
          · obtain ⟨T, hT, hxT, y, hyT, hyx⟩ := (hDOM x).2 hphi
            exact ⟨T, by simp [hT], hxT, y, hyT, hyx⟩
          · exact ⟨insert b {j}, by simp, by simp [hxj], b, by simp, by omega⟩
          · obtain ⟨T, hT, huT, hjT⟩ := hCP u j huj
            exact absurd hjT (hNF T hT).2
      · rcases hLAST with ⟨Lp, Lf, hLeq, hLp, hLf⟩
        rcases hLf with rfl | ⟨F, rfl, hbF⟩
        · rw [List.append_nil] at hLeq
          subst hLeq
          exact ⟨L, [insert b {j}], rfl, hLp, .inr ⟨_, rfl, by simp⟩⟩
        · exact absurd hbF (hNF F (hLeq ▸ (by simp))).1
    · -- the first cluster holding b or j receives both
      rw [addPair_of_split hclean hc]
      have hmemc' : ∀ m, m ∈ insert b (insert j c) ↔ m = b ∨ m = j ∨ m ∈ c := by
        intro m; simp
      refine ⟨?_, ?_, ?_, ?_⟩
      · intro T hT m hm
        rcases List.mem_append.1 hT with hT | hT
        · obtain ⟨u, w, hp, hmw, hu, hw⟩ := hPM T (by simp [hT]) m hm
          exact ⟨u, w, procA_mono hp, hmw, hu, hw⟩
        rcases List.mem_cons.1 hT with rfl | hT
        · rcases (hmemc' m).1 hm with hmb | hmj | hmc
          · exact ⟨b, j, hnewp, .inl hmb, (hmemc' b).2 (.inl rfl),
              (hmemc' j).2 (.inr (.inl rfl))⟩
          · exact ⟨b, j, hnewp, .inr hmj, (hmemc' b).2 (.inl rfl),
              (hmemc' j).2 (.inr (.inl rfl))⟩
          · obtain ⟨u, w, hp, hmw, hu, hw⟩ := hPM c (by simp) m hmc
            exact ⟨u, w, procA_mono hp, hmw, (hmemc' u).2 (.inr (.inr hu)),
              (hmemc' w).2 (.inr (.inr hw))⟩
        · obtain ⟨u, w, hp, hmw, hu, hw⟩ := hPM T (by simp [hT]) m hm
          exact ⟨u, w, procA_mono hp, hmw, hu, hw⟩
      · intro u w hp
        rcases procA_succ.1 hp with hp | ⟨hub, hwj, _⟩
        · obtain ⟨T, hT, hu, hw⟩ := hCP u w hp
          rcases List.mem_append.1 hT with hT | hT
          · exact ⟨T, by simp [hT], hu, hw⟩
          rcases List.mem_cons.1 hT with rfl | hT
          · exact ⟨insert b (insert j T), by simp, (hmemc' u).2 (.inr (.inr hu)),
              (hmemc' w).2 (.inr (.inr hw))⟩
          · exact ⟨T, by simp [hT], hu, hw⟩
        · exact ⟨insert b (insert j c), by simp, (hmemc' u).2 (.inl hub),
            (hmemc' w).2 (.inr (.inl hwj))⟩
      · intro x
        rw [Phi_succ_accept hbj hjn hacc]
        constructor
        · rintro ⟨T, hT, hxT, y, hyT, hyx⟩
          rcases List.mem_append.1 hT with hT | hT
          · exact .inl ((hDOM x).1 ⟨T, by simp [hT], hxT, y, hyT, hyx⟩)
          rcases List.mem_cons.1 hT with rfl | hT
          · rcases (hmemc' x).1 hxT with hxb | hxj | hxc
            · by_cases hbc : b ∈ c
              · have hyc : y ∈ c := by
                  rcases (hmemc' y).1 hyT with hyb | hyj | hy
                  · omega
                  · omega
                  · exact hy
                exact .inl ((hDOM x).1 ⟨c, by simp, hxb.symm ▸ hbc, y, hyc, hyx⟩)
              · have hjc : j ∈ c := hc.resolve_left hbc
                obtain ⟨u, huc, hub, hpu⟩ := factA c (by simp) hjc
                exact .inr (.inr ⟨hxb, u, hub, hpu⟩)
            · exact .inr (.inl hxj)
            · by_cases hzc : ∃ z ∈ c, z < x
              · obtain ⟨z, hzc', hzx⟩ := hzc
                exact .inl ((hDOM x).1 ⟨c, by simp, hxc, z, hzc', hzx⟩)
              · have hbx : b < x := by
                  rcases (hmemc' y).1 hyT with hyb | hyj | hy
                  · omega
                  · omega
                  · exact absurd ⟨y, hy, hyx⟩ hzc
                obtain ⟨u, w, hp, hmw, huc, hwc⟩ := hPM c (by simp) x hxc
                obtain ⟨h1, h2, h3, h4⟩ := hp
                rcases hmw with rfl | rfl
                · rcases h4 with h4 | ⟨h4, _⟩ <;> omega
                · exact absurd ⟨u, huc, h1⟩ hzc
          · exact .inl ((hDOM x).1 ⟨T, by simp [hT], hxT, y, hyT, hyx⟩)
        · rintro (hphi | hxj | ⟨hxb, u, hu, huj⟩)
          · obtain ⟨T, hT, hxT, y, hyT, hyx⟩ := (hDOM x).2 hphi
            rcases List.mem_append.1 hT with hT | hT
            · exact ⟨T, by simp [hT], hxT, y, hyT, hyx⟩
            rcases List.mem_cons.1 hT with rfl | hT
            · exact ⟨insert b (insert j T), by simp, (hmemc' x).2 (.inr (.inr hxT)),
                y, (hmemc' y).2 (.inr (.inr hyT)), hyx⟩
            · exact ⟨T, by simp [hT], hxT, y, hyT, hyx⟩
          · exact ⟨insert b (insert j c), by simp, (hmemc' x).2 (.inr (.inl hxj)),
              b, (hmemc' b).2 (.inl rfl), by omega⟩
          · by_cases hjc : j ∈ c
            · obtain ⟨u', hu'c, hu'b, _⟩ := factA c (by simp) hjc
              exact ⟨insert b (insert j c), by simp, (hmemc' x).2 (.inl hxb),
                u', (hmemc' u').2 (.inr (.inr hu'c)), by omega⟩
            · have hbc : b ∈ c := hc.resolve_right hjc
              by_cases hvc : ∃ v ∈ c, v < b
              · obtain ⟨v, hvc', hvb⟩ := hvc
                exact ⟨insert b (insert j c), by simp, (hmemc' x).2 (.inl hxb),
                  v, (hmemc' v).2 (.inr (.inr hvc')), by omega⟩
              · exfalso
                obtain ⟨T₀, hT₀, hu₀, hj₀⟩ := hCP u j huj
                rcases hLAST with ⟨Lp, Lf, hLeq, hLp, hLf⟩
                have hcLp : c ∉ Lp := fun hmem => hvc (hLp c hmem)
                rcases hLf with rfl | ⟨F, rfl, hbF⟩
                · rw [List.append_nil] at hLeq
                  exact hvc (hLp c (hLeq ▸ (by simp)))
                · obtain ⟨hL₁, hcF, hL₂⟩ := split_concat L₁ c L₂ Lp F hLeq hcLp
                  subst hL₂
                  rcases List.mem_append.1 hT₀ with hT₀ | hT₀
                  · exact (hclean T₀ hT₀).2 hj₀
                  · rcases List.mem_cons.1 hT₀ with rfl | hmem
                    · exact hjc hj₀
                    · cases hmem
      · rcases hLAST with ⟨Lp, Lf, hLeq, hLp, hLf⟩
        rcases hLf with rfl | ⟨F, rfl, hbF⟩
        · rw [List.append_nil] at hLeq
          refine ⟨L₁ ++ insert b (insert j c) :: L₂, [], by simp, ?_, .inl rfl⟩
          intro d hd
          rcases List.mem_append.1 hd with hd | hd
          · exact hLp d (hLeq ▸ (by simp [hd]))
          · rcases List.mem_cons.1 hd with rfl | hd
            · obtain ⟨v, hv, hvb⟩ := hLp c (hLeq ▸ (by simp))
              exact ⟨v, (hmemc' v).2 (.inr (.inr hv)), hvb⟩
            · exact hLp d (hLeq ▸ (by simp [hd]))
        · by_cases hL₂ : L₂ = []
          · subst hL₂
            have hlen : L₁.length = Lp.length := by
              have hl := congrArg List.length hLeq
              simp at hl
              omega
            obtain ⟨hL₁, hcF⟩ := List.append_inj hLeq hlen
            refine ⟨L₁, [insert b (insert j c)], by simp, ?_,
              .inr ⟨_, rfl, (hmemc' b).2 (.inl rfl)⟩⟩
            intro d hd
            exact hLp d (hL₁ ▸ hd)
          · obtain ⟨L₂', Flast, rfl⟩ := (List.eq_nil_or_concat L₂).resolve_left hL₂
            have hLeq' : (L₁ ++ c :: L₂') ++ [Flast] = Lp ++ [F] := by
              simpa using hLeq
            have hlen : (L₁ ++ c :: L₂').length = Lp.length := by
              have hl := congrArg List.length hLeq'
              simp only [List.length_append, List.length_cons] at hl ⊢
              omega
            obtain ⟨hpre, hFl⟩ := List.append_inj hLeq' hlen
            have hFlast : Flast = F := (List.cons.inj hFl).1
            refine ⟨L₁ ++ insert b (insert j c) :: L₂', [Flast], by simp, ?_,
              .inr ⟨Flast, rfl, hFlast ▸ hbF⟩⟩
            intro d hd
            rcases List.mem_append.1 hd with hd | hd
            · exact hLp d (hpre ▸ (by simp [hd]))
            rcases List.mem_cons.1 hd with rfl | hd
            · obtain ⟨v, hv, hvb⟩ := hLp c (hpre ▸ (by simp))
              exact ⟨v, (hmemc' v).2 (.inr (.inr hv)), hvb⟩
            · exact hLp d (hpre ▸ (by simp [hd]))

/-- The pairs of outer block `b`, inner indices `j, j+1, …, j+len-1`. -/
def innerPairs (b j len : ℕ) : List (ℕ × ℕ) :=
  (List.range' j len).map fun w => (b, w)

theorem Inv_inner {acc : ℕ → ℕ → Bool} {n b : ℕ} :
    ∀ (len j : ℕ) (L : List (Finset ℕ)), b < j → j + len = n →
      Inv acc n b j L → Inv acc n b n (accFold acc (innerPairs b j len) L) := by
  intro len
  induction len with
  | zero =>
    intro j L hbj hjn h
    have hj : j = n := by omega
    subst hj
    simpa [innerPairs, accFold] using h
  | succ len ih =>
    intro j L hbj hjn h
    have hrange : List.range' j (len + 1) = j :: List.range' (j + 1) len :=
      List.range'_succ j len 1 ▸ rfl
    rw [innerPairs, hrange, List.map_cons, accFold, List.foldl_cons]
    exact ih (j + 1) _ (by omega) (by omega) (Inv_step hbj (by omega) h)

theorem Inv_shift {acc : ℕ → ℕ → Bool} {n b : ℕ} {L : List (Finset ℕ)}
    (h : Inv acc n b n L) : Inv acc n (b + 1) (b + 2) L := by
  obtain ⟨hPM, hCP, hDOM, hLAST⟩ := h
  refine ⟨?_, ?_, ?_, ?_⟩
  · simpa only [← procA_shift] using hPM
  · simpa only [← procA_shift] using hCP
  · simpa only [Phi, ← procA_shift] using hDOM
  · obtain ⟨Lp, Lf, rfl, hLp, hLf⟩ := hLAST
    refine ⟨Lp ++ Lf, [], by simp, ?_, .inl rfl⟩
    intro c hc
    rcases List.mem_append.1 hc with hc | hc
    · obtain ⟨v, hv, hvb⟩ := hLp c hc
      exact ⟨v, hv, by omega⟩
    · rcases hLf with rfl | ⟨F, rfl, hbF⟩
      · cases hc
      · rcases List.mem_cons.1 hc with rfl | hmem
        · exact ⟨b, hbF, by omega⟩
        · cases hmem

theorem Inv_zero {acc : ℕ → ℕ → Bool} {n : ℕ} : Inv acc n 0 1 [] := by
  refine ⟨by simp, ?_, ?_, ⟨[], [], rfl, by simp, .inl rfl⟩⟩
  · intro u w hp
    exact absurd hp procA_zero
  · intro x
    constructor
    · rintro ⟨T, hT, _⟩
      cases hT
    · rintro (⟨v, hv⟩ | ⟨w, hw, _⟩)
      · exact absurd hv procA_zero
      · exact absurd hw procA_zero

theorem foldl_flatMap {α β γ : Type} (f : α → List β) (g : γ → β → γ) :
    ∀ (l : List α) (init : γ),
      (l.flatMap f).foldl g init = l.foldl (fun st a => (f a).foldl g st) init := by
  intro l
  induction l with
  | nil => intro init; rfl
  | cons a as ih =>
    intro init
    rw [List.flatMap_cons, List.foldl_append, List.foldl_cons, ih]

theorem accFold_pairsUpTo (acc : ℕ → ℕ → Bool) (n : ℕ) :
    accFold acc (pairsUpTo n) [] =
      (List.range n).foldl
        (fun st i => accFold acc (innerPairs i (i + 1) (n - (i + 1))) st) [] := by
  rw [pairsUpTo, accFold, foldl_flatMap]
  rfl

theorem Inv_final {acc : ℕ → ℕ → Bool} {n : ℕ} :
    Inv acc n n (n + 1) (accFold acc (pairsUpTo n) []) := by
  rw [accFold_pairsUpTo]
  have houter : ∀ b, b ≤ n → Inv acc n b (b + 1)
      ((List.range b).foldl
        (fun st i => accFold acc (innerPairs i (i + 1) (n - (i + 1))) st) []) := by
    intro b
    induction b with
    | zero => intro _; exact Inv_zero
    | succ b ih =>
      intro hb
      rw [List.range_succ, List.foldl_append, List.foldl_cons, List.foldl_nil]
      exact Inv_shift (Inv_inner (n - (b + 1)) (b + 1) _ (by omega) (by omega)
        (ih (by omega)))
  exact houter n (le_refl n)

/-- Closed-form membership in the drop set of the cluster fold: a row
index is dropped iff some earlier index pairs with it directly, or it
pairs with a later index that some earlier index also pairs with. -/
theorem mem_dropSetOf_accFold {acc : ℕ → ℕ → Bool} {n x : ℕ} :
    x ∈ dropSetOf (accFold acc (pairsUpTo n) []) ↔
      (∃ v, v < x ∧ x < n ∧ acc v x = true) ∨
      (∃ w, x < w ∧ w < n ∧ acc x w = true ∧ ∃ u, u < x ∧ acc u w = true) := by
  obtain ⟨_, _, hDOM, _⟩ := @Inv_final acc n
  have hdom : (∃ T ∈ accFold acc (pairsUpTo n) [], x ∈ T ∧ ∃ y ∈ T, y < x) ↔
      (∃ v, v < x ∧ x < n ∧ acc v x = true) ∨
      (∃ w, x < w ∧ w < n ∧ acc x w = true ∧ ∃ u, u < x ∧ acc u w = true) := by
    rw [hDOM x]
    unfold Phi
    simp only [procA_final]
    constructor
    · rintro (⟨v, h1, h2, h3⟩ | ⟨w, ⟨hxw, hwn, haccw⟩, u, hux, huw, _, haccu⟩)
      · exact .inl ⟨v, h1, h2, h3⟩
      · exact .inr ⟨w, hxw, hwn, haccw, u, hux, haccu⟩
    · rintro (⟨v, h1, h2, h3⟩ | ⟨w, hxw, hwn, haccw, u, hux, haccu⟩)
      · exact .inl ⟨v, h1, h2, h3⟩
      · exact .inr ⟨w, ⟨hxw, hwn, haccw⟩, u, hux, by omega, hwn, haccu⟩
  rw [← hdom, mem_dropSetOf]
  constructor
  · rintro ⟨c, hc, hxc, hne⟩
    obtain ⟨y, hy, hyx⟩ := (mem_smaller_iff_ne_min hxc).2 hne
    exact ⟨c, hc, hxc, y, hy, hyx⟩
  · rintro ⟨c, hc, hxc, y, hy, hyx⟩
    exact ⟨c, hc, hxc, (mem_smaller_iff_ne_min hxc).1 ⟨y, hy, hyx⟩⟩

/-! ## Cluster sizes, bounds and non-emptiness -/

theorem mem_pairsUpTo {n : ℕ} {p : ℕ × ℕ} :
    p ∈ pairsUpTo n ↔ p.1 < p.2 ∧ p.2 < n := by
  rcases p with ⟨i, j⟩
  simp only [pairsUpTo, List.mem_flatMap, List.mem_map, List.mem_range,
    List.mem_range'_1, Prod.mk.injEq]
  constructor
  · rintro ⟨a, ha, b, ⟨hb1, hb2⟩, rfl, rfl⟩
    exact ⟨by omega, by omega⟩
  · rintro ⟨h1, h2⟩
    exact ⟨i, by omega, j, ⟨by omega, by omega⟩, rfl, rfl⟩

theorem addPair_ne_nil (i j : ℕ) (L : List (Finset ℕ)) : addPair i j L ≠ [] := by
  cases L with
  | nil => simp [addPair_nil]
  | cons c rest =>
    rw [addPair_cons]
    split <;> simp

theorem addPair_card {i j : ℕ} (hij : i ≠ j) :
    ∀ {L : List (Finset ℕ)}, (∀ c ∈ L, 2 ≤ c.card) →
      ∀ c ∈ addPair i j L, 2 ≤ c.card := by
  intro L
  induction L with
  | nil =>
    intro _ c hc
    rw [addPair_nil] at hc
    have hceq : c = insert i {j} := by simpa using hc
    subst hceq
    rw [Finset.card_insert_of_not_mem (by simpa using hij), Finset.card_singleton]
  | cons d rest ih =>
    intro h c hc
    rw [addPair_cons] at hc
    split at hc
    · rcases List.mem_cons.1 hc with rfl | hc
      · exact Finset.one_lt_card.2 ⟨i, by simp, j, by simp, hij⟩
      · exact h c (by simp [hc])
    · rcases List.mem_cons.1 hc with rfl | hc
      · exact h c (by simp)
      · exact ih (fun c' hc' => h c' (by simp [hc'])) c hc

theorem accFold_card {acc : ℕ → ℕ → Bool} :
    ∀ (pairs : List (ℕ × ℕ)) (init : List (Finset ℕ)),
      (∀ p ∈ pairs, p.1 ≠ p.2) → (∀ c ∈ init, 2 ≤ c.card) →
      ∀ c ∈ accFold acc pairs init, 2 ≤ c.card := by
  intro pairs
  induction pairs with
  | nil => intro init _ h; exact h
  | cons p ps ih =>
    intro init hp h
    rw [accFold, List.foldl_cons]
    apply ih _ fun p' hp' => hp p' (by simp [hp'])
    unfold accStep
    split
    · exact addPair_card (hp p (by simp)) h
    · exact h

theorem addPair_bound {i j n : ℕ} (hi : i < n) (hj : j < n) :
    ∀ {L : List (Finset ℕ)}, (∀ c ∈ L, ∀ x ∈ c, x < n) →
      ∀ c ∈ addPair i j L, ∀ x ∈ c, x < n := by
  intro L
  induction L with
  | nil =>
    intro _ c hc x hx
    rw [addPair_nil] at hc
    have hceq : c = insert i {j} := by simpa using hc
    subst hceq
    rcases by simpa using hx with rfl | rfl <;> assumption
  | cons d rest ih =>
    intro h c hc x hx
    rw [addPair_cons] at hc
    split at hc
    · rcases List.mem_cons.1 hc with rfl | hc
      · rcases by simpa using hx with rfl | rfl | hxd
        · exact hi
        · exact hj
        · exact h d (by simp) x hxd
      · exact h c (by simp [hc]) x hx
    · rcases List.mem_cons.1 hc with rfl | hc
      · exact h c (by simp) x hx
      · exact ih (fun c' hc' => h c' (by simp [hc'])) c hc x hx

theorem accFold_bound {acc : ℕ → ℕ → Bool} {n : ℕ} :
    ∀ (pairs : List (ℕ × ℕ)) (init : List (Finset ℕ)),
      (∀ p ∈ pairs, p.1 < n ∧ p.2 < n) → (∀ c ∈ init, ∀ x ∈ c, x < n) →
      ∀ c ∈ accFold acc pairs init, ∀ x ∈ c, x < n := by
  intro pairs
  induction pairs with
  | nil => intro init _ h; exact h
  | cons p ps ih =>
    intro init hp h
    rw [accFold, List.foldl_cons]
    apply ih _ fun p' hp' => hp p' (by simp [hp'])
    unfold accStep
    split
    · exact addPair_bound (hp p (by simp)).1 (hp p (by simp)).2 h
    · exact h

theorem accFold_ne_nil {acc : ℕ → ℕ → Bool} :
    ∀ (pairs : List (ℕ × ℕ)) (init : List (Finset ℕ)),
      ((∃ p ∈ pairs, acc p.1 p.2 = true) ∨ init ≠ []) →
      accFold acc pairs init ≠ [] := by
  intro pairs
  induction pairs with
  | nil =>
    intro init h
    rcases h with ⟨p, hp, _⟩ | h
    · cases hp
    · exact h
  | cons p ps ih =>
    intro init h
    rw [accFold, List.foldl_cons]
    unfold accStep
    split
    · exact ih _ (.inr (addPair_ne_nil p.1 p.2 init))
    · next hacc =>
        apply ih
        rcases h with ⟨p', hp', hacc'⟩ | h2
        · rcases List.mem_cons.1 hp' with rfl | hp'
          · exact absurd hacc' hacc
          · exact .inl ⟨p', hp', hacc'⟩
        · exact .inr h2

theorem accFold_all_false {acc : ℕ → ℕ → Bool} :
    ∀ (pairs : List (ℕ × ℕ)) (init : List (Finset ℕ)),
      (∀ p ∈ pairs, acc p.1 p.2 = false) → accFold acc pairs init = init := by
  intro pairs
  induction pairs with
  | nil => intro init _; rfl
  | cons p ps ih =>
    intro init h
    rw [accFold, List.foldl_cons]
    unfold accStep
    rw [if_neg (by simp [h p (by simp)])]
    exact ih init fun p' hp' => h p' (by simp [hp'])

/-! ## Success of the similarity computation on valid columns -/

theorem indexOf?_of_mem {l : List String} {c : String} (h : c ∈ l) :
    ∃ k, l.indexOf? c = some k ∧ k < l.length := by
  induction l with
  | nil => cases h
  | cons a as ih =>
    rw [List.indexOf?_cons]
    by_cases hac : a = c
    · exact ⟨0, by simp [hac], by simp⟩
    · have hmem : c ∈ as := by
        rcases List.mem_cons.1 h with rfl | hmm
        · exact absurd rfl hac
        · exact hmm
      obtain ⟨k, hk, hklen⟩ := ih hmem
      refine ⟨k + 1, ?_, by simp; omega⟩
      rw [if_neg (by simpa using hac), hk]
      rfl

theorem cellValue_isSome {t : Table} {i : ℕ} {c : String} (hwf : Wf t)
    (hc : c ∈ t.cols) (hi : i < t.rows.length) :
    ∃ a, cellValue t i c = some a ∧ ∃ r ∈ t.rows, a ∈ r := by
  obtain ⟨k, hk, hklen⟩ := indexOf?_of_mem hc
  have hr : t.rows.get? i = some (t.rows.get ⟨i, hi⟩) := List.get?_eq_get hi
  have hrmem : t.rows.get ⟨i, hi⟩ ∈ t.rows := List.get_mem ..
  have hrlen : k < (t.rows.get ⟨i, hi⟩).length := by
    rw [hwf _ hrmem]
    exact hklen
  have ha : (t.rows.get ⟨i, hi⟩).get? k =
      some ((t.rows.get ⟨i, hi⟩).get ⟨k, hrlen⟩) := List.get?_eq_get hrlen
  refine ⟨(t.rows.get ⟨i, hi⟩).get ⟨k, hrlen⟩, ?_,
    t.rows.get ⟨i, hi⟩, hrmem, List.get_mem _ _ _⟩
  rw [cellValue, hk, Option.some_bind, hr, Option.some_bind, ha]

/-- Total cell lookup on valid data. -/
def cellD (t : Table) (i : ℕ) (c : String) : String := (cellValue t i c).getD ""

/-- The per-column similarity list on valid data, as a total function. -/
def colSimsD (sim : String → String → ℚ) (t : Table) (cols : List String)
    (i j : ℕ) : List ℚ :=
  cols.map fun c => sim (normalize (cellD t i c)) (normalize (cellD t j c))

theorem colSims_eq_some {sim : String → String → ℚ} {t : Table} {i j : ℕ} :
    ∀ {cols : List String},
      (∀ c ∈ cols, (cellValue t i c).isSome ∧ (cellValue t j c).isSome) →
      colSims sim t cols i j = some (colSimsD sim t cols i j) := by
  intro cols
  induction cols with
  | nil => intro _; rfl
  | cons c cs ih =>
    intro h
    obtain ⟨h1, h2⟩ := h c (by simp)
    obtain ⟨a, ha⟩ := Option.isSome_iff_exists.1 h1
    obtain ⟨b, hb⟩ := Option.isSome_iff_exists.1 h2
    have hrest := ih fun c' hc' => h c' (by simp [hc'])
    rw [colSims] at hrest ⊢
    rw [List.mapM_cons, hrest]
    simp [ha, hb, cellD, colSimsD]

theorem pairAvg_ok {sim : String → String → ℚ} {t : Table} {cols : List String}
    {i j : ℕ} (hwf : Wf t) (hsub : ∀ c ∈ cols, c ∈ t.cols)
    (hi : i < t.rows.length) (hj : j < t.rows.length) (hne : cols ≠ []) :
    pairAvg sim t cols i j =
      .ok ((colSimsD sim t cols i j).sum / (colSimsD sim t cols i j).length) := by
  have h : ∀ c ∈ cols, (cellValue t i c).isSome ∧ (cellValue t j c).isSome := by
    intro c hc
    obtain ⟨a, ha, _⟩ := cellValue_isSome hwf (hsub c hc) hi
    obtain ⟨b, hb, _⟩ := cellValue_isSome hwf (hsub c hc) hj
    exact ⟨by simp [ha], by simp [hb]⟩
  cases hcs : colSimsD sim t cols i j with
  | nil =>
    exfalso
    apply hne
    have := hcs
    rw [colSimsD] at this
    exact List.map_eq_nil.1 this
  | cons q qs =>
    rw [pairAvg, colSims_eq_some h, hcs]

theorem fuzzy_eq_accFold {sim : String → String → ℚ} {t : Table}
    {subset : Option (List String)} {rrange : Option (ℚ × ℚ)} (hwf : Wf t)
    (hsub : ∀ c ∈ resolveColumns t subset, c ∈ t.cols)
    (hne : resolveColumns t subset ≠ []) :
    handle_duplicate_values_fuzzy sim t subset rrange = .ok ⟨t.cols,
      (keptIdx t.rows.length (dropSetOf (accFold
        (accOf sim (resolveRange rrange).1 (resolveRange rrange).2 t
          (resolveColumns t subset))
        (pairsUpTo t.rows.length) []))).map fun k => t.rows.getD k []⟩ := by
  have hbc : buildClusters sim (resolveRange rrange).1 (resolveRange rrange).2 t
      (resolveColumns t subset) (pairsUpTo t.rows.length) =
      .ok (accFold (accOf sim (resolveRange rrange).1 (resolveRange rrange).2 t
        (resolveColumns t subset)) (pairsUpTo t.rows.length) []) := by
    apply buildClusters_ok_of
    intro p hp
    obtain ⟨h1, h2⟩ := mem_pairsUpTo.1 hp
    exact ⟨_, pairAvg_ok hwf hsub (by omega) h2 hne⟩
  rw [handle_duplicate_values_fuzzy, hbc]

theorem table_eta (t : Table) : (⟨t.cols, t.rows⟩ : Table) = t := rfl

theorem keptIdx_empty_map (t : Table) :
    (keptIdx t.rows.length ∅).map (fun k => t.rows.getD k []) = t.rows := by
  rw [keptIdx_empty, map_getD_range]

/-! ## The similarity model: bounds and exactness -/

theorem lcsF_le_left : ∀ (f : ℕ) (a b : List Char), lcsF f a b ≤ a.length := by
  intro f
  induction f with
  | zero => intro a b; simp [lcsF]
  | succ f ih =>
    intro a b
    cases a with
    | nil => simp [lcsF]
    | cons x xs =>
      cases b with
      | nil => simp [lcsF]
      | cons y ys =>
        by_cases hxy : x = y
        · simp only [lcsF, if_pos hxy, List.length_cons]
          have := ih xs ys
          omega
        · simp only [lcsF, if_neg hxy, List.length_cons]
          have h1 := ih (x :: xs) ys
          have h2 := ih xs (y :: ys)
          simp only [List.length_cons] at h1
          omega

theorem lcsF_le_right : ∀ (f : ℕ) (a b : List Char), lcsF f a b ≤ b.length := by
  intro f
  induction f with
  | zero => intro a b; simp [lcsF]
  | succ f ih =>
    intro a b
    cases a with
    | nil => simp [lcsF]
    | cons x xs =>
      cases b with
      | nil => simp [lcsF]
      | cons y ys =>
        by_cases hxy : x = y
        · simp only [lcsF, if_pos hxy, List.length_cons]
          have := ih xs ys
          omega
        · simp only [lcsF, if_neg hxy, List.length_cons]
          have h1 := ih (x :: xs) ys
          have h2 := ih xs (y :: ys)
          simp only [List.length_cons] at h2
          omega

theorem lcsF_self : ∀ (f : ℕ) (a : List Char), a.length ≤ f →
    lcsF f a a = a.length := by
  intro f
  induction f with
  | zero =>
    intro a ha
    have hnil : a = [] := List.length_eq_zero.1 (by omega)
    subst hnil
    simp [lcsF]
  | succ f ih =>
    intro a ha
    cases a with
    | nil => simp [lcsF]
    | cons x xs =>
      simp only [lcsF, eq_self_iff_true, if_true, List.length_cons]
      have hlen : xs.length ≤ f := by
        simp only [List.length_cons] at ha
        omega
      rw [ih xs hlen]
      omega

theorem lcsF_full : ∀ (f : ℕ) (a b : List Char), lcsF f a b = a.length →
    a.length = b.length → a = b := by
  intro f
  induction f with
  | zero =>
    intro a b h1 h2
    simp only [lcsF] at h1
    have ha : a = [] := List.length_eq_zero.1 h1.symm
    subst ha
    exact (List.length_eq_zero.1 h2.symm).symm
  | succ f ih =>
    intro a b h1 h2
    cases a with
    | nil =>
      exact (List.length_eq_zero.1 h2.symm).symm
    | cons x xs =>
      cases b with
      | nil =>
        simp only [lcsF, List.length_cons] at h1
        omega
      | cons y ys =>
        by_cases hxy : x = y
        · subst hxy
          simp only [lcsF, eq_self_iff_true, if_true, List.length_cons] at h1 h2
          rw [ih xs ys (by omega) (by omega)]
        · exfalso
          simp only [lcsF, if_neg hxy, List.length_cons] at h1 h2
          have hle1 := lcsF_le_right f (x :: xs) ys
          have hle2 := lcsF_le_left f xs (y :: ys)
          omega

theorem lcsL_le_left (a b : List Char) : lcsL a b ≤ a.length :=
  lcsF_le_left _ a b

theorem lcsL_le_right (a b : List Char) : lcsL a b ≤ b.length :=
  lcsF_le_right _ a b

theorem lcsL_self (a : List Char) : lcsL a a = a.length :=
  lcsF_self _ a (by omega)

theorem lcsL_full (a b : List Char) : lcsL a b = a.length →
    a.length = b.length → a = b :=
  lcsF_full _ a b

theorem fuzzSim_le_100 (a b : String) : fuzzSim a b ≤ 100 := by
  rw [fuzzSim]
  split
  · exact le_refl _
  · next hne =>
    have hl1 : lcsL a.data b.data ≤ a.length := lcsL_le_left a.data b.data
    have hl2 : lcsL a.data b.data ≤ b.length := lcsL_le_right a.data b.data
    have hpos : (0 : ℚ) < (a.length : ℚ) + (b.length : ℚ) := by
      have : 0 < a.length + b.length := Nat.pos_of_ne_zero hne
      exact_mod_cast this
    rw [div_le_iff hpos]
    have h2 : 2 * lcsL a.data b.data ≤ a.length + b.length := by omega
    have h2q : ((2 * lcsL a.data b.data : ℕ) : ℚ) ≤
        ((a.length + b.length : ℕ) : ℚ) := by exact_mod_cast h2
    push_cast at h2q ⊢
    linarith

theorem fuzzSim_eq_100_iff (a b : String) : fuzzSim a b = 100 ↔ a = b := by
  constructor
  · intro h
    rw [fuzzSim] at h
    split at h
    · next hz =>
      have ha : a.length = 0 := by omega
      have hb : b.length = 0 := by omega
      have ha' : a.data = [] := List.length_eq_zero.1 ha
      have hb' : b.data = [] := List.length_eq_zero.1 hb
      cases a
      cases b
      simp_all
    · next hne =>
      have hpos : (0 : ℚ) < (a.length : ℚ) + (b.length : ℚ) := by
        have : 0 < a.length + b.length := Nat.pos_of_ne_zero hne
        exact_mod_cast this
      rw [div_eq_iff (ne_of_gt hpos)] at h
      have hnat : 2 * lcsL a.data b.data = a.length + b.length := by
        have : (200 : ℚ) * (lcsL a.data b.data : ℚ) =
            100 * ((a.length : ℚ) + (b.length : ℚ)) := by
          linarith [h]
        have h2 : ((2 * lcsL a.data b.data : ℕ) : ℚ) =
            ((a.length + b.length : ℕ) : ℚ) := by
          push_cast
          linarith
        exact_mod_cast h2
      have hl1 : lcsL a.data b.data ≤ a.length := lcsL_le_left a.data b.data
      have hl2 : lcsL a.data b.data ≤ b.length := lcsL_le_right a.data b.data
      have hfull : lcsL a.data b.data = a.data.length := by
        have hlen : a.length = a.data.length := rfl
        omega
      have hlen2 : a.data.length = b.data.length := by
        have hlen : a.length = a.data.length := rfl
        have hlen' : b.length = b.data.length := rfl
        omega
      have hdata : a.data = b.data := lcsL_full a.data b.data hfull hlen2
      cases a
      cases b
      simp_all
  · rintro rfl
    rw [fuzzSim]
    split
    · rfl
    · next hne =>
      rw [lcsL_self]
      have hlen : a.length = a.data.length := rfl
      have hpos : (0 : ℚ) < (a.length : ℚ) + (a.length : ℚ) := by
        have : 0 < a.length + a.length := by omega
        exact_mod_cast this
      rw [div_eq_iff (ne_of_gt hpos), ← hlen]
      ring

/-! ## Range `(100, 100)` acceptance is key equality -/

theorem sum_le_of_all_le {qs : List ℚ} (h : ∀ q ∈ qs, q ≤ 100) :
    qs.sum ≤ 100 * qs.length := by
  induction qs with
  | nil => simp
  | cons q rest ih =>
    have hq := h q (by simp)
    have hrest := ih fun q' hq' => h q' (by simp [hq'])
    simp only [List.sum_cons, List.length_cons]
    push_cast
    linarith

theorem sum_eq_iff_all_eq {qs : List ℚ} (h : ∀ q ∈ qs, q ≤ 100) :
    qs.sum = 100 * qs.length ↔ ∀ q ∈ qs, q = 100 := by
  induction qs with
  | nil => simp
  | cons q rest ih =>
    have hq := h q (by simp)
    have hrest := sum_le_of_all_le fun q' hq' => h q' (List.mem_cons_of_mem _ hq')
    have hih := ih fun q' hq' => h q' (List.mem_cons_of_mem _ hq')
    simp only [List.sum_cons, List.length_cons, List.mem_cons]
    constructor
    · intro heq
      have hq100 : q = 100 := by
        push_cast at heq
        linarith
      have hrest100 : rest.sum = 100 * rest.length := by
        push_cast at heq ⊢
        linarith
      intro q' hq'
      rcases hq' with rfl | hq'
      · exact hq100
      · exact (hih.1 hrest100) q' hq'
    · intro hall
      have hq100 : q = 100 := hall q (.inl rfl)
      have hrest100 : rest.sum = 100 * rest.length :=
        hih.2 fun q' hq' => hall q' (.inr hq')
      rw [hq100, hrest100]
      push_cast
      ring

theorem avg_eq_100_iff {qs : List ℚ} (hne : qs ≠ []) (h : ∀ q ∈ qs, q ≤ 100) :
    qs.sum / qs.length = 100 ↔ ∀ q ∈ qs, q = 100 := by
  have hlen : (0 : ℚ) < qs.length := by
    have : 0 < qs.length := List.length_pos.2 hne
    exact_mod_cast this
  rw [div_eq_iff (ne_of_gt hlen)]
  exact sum_eq_iff_all_eq h

theorem map_eq_map_forall {α β : Type} {f g : α → β} :
    ∀ {l : List α}, l.map f = l.map g → ∀ a ∈ l, f a = g a := by
  intro l
  induction l with
  | nil => intro _ a ha; cases ha
  | cons x xs ih =>
    intro h a ha
    simp only [List.map_cons, List.cons.injEq] at h
    rcases List.mem_cons.1 ha with rfl | ha
    · exact h.1
    · exact ih h.2 a ha

theorem accOf_100_eq_keyEq {t : Table} {cols : List String} (hwf : Wf t)
    (hsub : ∀ c ∈ cols, c ∈ t.cols) (hne : cols ≠ [])
    (hfix : ∀ i, i < t.rows.length → ∀ c ∈ cols,
      normalize (cellD t i c) = cellD t i c)
    {i j : ℕ} (hi : i < t.rows.length) (hj : j < t.rows.length) :
    accOf fuzzSim 100 100 t cols i j =
      decide (rowKey t cols i = rowKey t cols j) := by
  rw [accOf, pairAvg_ok hwf hsub hi hj hne]
  have hle : ∀ q ∈ colSimsD fuzzSim t cols i j, q ≤ 100 := by
    intro q hq
    rw [colSimsD] at hq
    obtain ⟨c, hc, rfl⟩ := List.mem_map.1 hq
    exact fuzzSim_le_100 _ _
  have hnil : colSimsD fuzzSim t cols i j ≠ [] := by
    rw [colSimsD]
    simpa using hne
  have hcellD : ∀ c ∈ cols, (cellValue t i c = cellValue t j c ↔
      cellD t i c = cellD t j c) := by
    intro c hc
    obtain ⟨a, ha, _⟩ := cellValue_isSome hwf (hsub c hc) hi
    obtain ⟨b, hb, _⟩ := cellValue_isSome hwf (hsub c hc) hj
    rw [ha, hb]
    have ha' : cellD t i c = a := by simp [cellD, ha]
    have hb' : cellD t j c = b := by simp [cellD, hb]
    rw [ha', hb']
    simp
  have hkey : (∀ q ∈ colSimsD fuzzSim t cols i j, q = 100) ↔
      rowKey t cols i = rowKey t cols j := by
    constructor
    · intro hall
      apply List.map_congr_left
      intro c hc
      have hq := hall _ (List.mem_map_of_mem _ hc)
      have heq := (fuzzSim_eq_100_iff _ _).1 hq
      rw [hfix i hi c hc, hfix j hj c hc] at heq
      exact (hcellD c hc).2 heq
    · intro hkeyeq q hq
      rw [colSimsD] at hq
      obtain ⟨c, hc, rfl⟩ := List.mem_map.1 hq
      have hcv : cellValue t i c = cellValue t j c :=
        map_eq_map_forall hkeyeq c hc
      have hcd : cellD t i c = cellD t j c := (hcellD c hc).1 hcv
      rw [fuzzSim_eq_100_iff, hfix i hi c hc, hfix j hj c hc]
      exact hcd
  rw [decide_eq_decide]
  rw [show (100 : ℚ) ≤ (colSimsD fuzzSim t cols i j).sum /
        (colSimsD fuzzSim t cols i j).length ∧
      (colSimsD fuzzSim t cols i j).sum /
        (colSimsD fuzzSim t cols i j).length ≤ 100 ↔
      (colSimsD fuzzSim t cols i j).sum /
        (colSimsD fuzzSim t cols i j).length = 100 from
    ⟨fun hh => le_antisymm hh.2 hh.1, fun hh => ⟨le_of_eq hh.symm, le_of_eq hh⟩⟩]
  rw [avg_eq_100_iff hnil hle]
  exact hkey

theorem dupFirst_iff {t : Table} {cols : List String} {i : ℕ} :
    dupFirst t cols i = true ↔ ∃ j, j < i ∧ rowKey t cols j = rowKey t cols i := by
  rw [dupFirst, List.any_eq_true]
  constructor
  · rintro ⟨j, hj, hkey⟩
    exact ⟨j, List.mem_range.1 hj, of_decide_eq_true hkey⟩
  · rintro ⟨j, hj, hkey⟩
    exact ⟨j, List.mem_range.2 hj, decide_eq_true hkey⟩

theorem drop_eq_keepFirst {t : Table} {subset : Option (List String)}
    (hrows : t.rows ≠ []) (hcols : t.cols ≠ [])
    (hvalid : subset = none ∨
      ∃ cs, subset = some cs ∧ cs ≠ [] ∧ ∀ c ∈ cs, c ∈ t.cols) :
    handle_duplicate_values_drop t subset = .ok ⟨t.cols,
      ((List.range t.rows.length).filter fun i =>
        !dupFirst t (subset.getD t.cols) i).map fun k => t.rows.getD k []⟩ := by
  have h1 : ¬(t.rows.length = 0 ∨ t.cols.length = 0) := by
    push_neg
    exact ⟨fun h => hrows (List.length_eq_zero.1 h),
      fun h => hcols (List.length_eq_zero.1 h)⟩
  have hgd : subset.getD t.cols ≠ [] := by
    rcases hvalid with rfl | ⟨cs, rfl, hcsne, _⟩
    · simpa using hcols
    · simpa using hcsne
  have hsub : ∀ c ∈ subset.getD t.cols, c ∈ t.cols := by
    rcases hvalid with rfl | ⟨cs, rfl, _, hcssub⟩
    · simp
    · simpa using hcssub
  rw [handle_duplicate_values_drop, if_neg h1]
  simp only []
  rw [if_neg (by simpa [List.isEmpty_iff] using hgd)]
  rw [if_pos (by simpa [List.all_eq_true] using hsub)]

theorem fuzzy100_kept_eq {t : Table} {cols : List String} (hwf : Wf t)
    (hsub : ∀ c ∈ cols, c ∈ t.cols) (hne : cols ≠ [])
    (hfix : ∀ i, i < t.rows.length → ∀ c ∈ cols,
      normalize (cellD t i c) = cellD t i c) :
    keptIdx t.rows.length (dropSetOf (accFold (accOf fuzzSim 100 100 t cols)
      (pairsUpTo t.rows.length) [])) =
      (List.range t.rows.length).filter fun i => !dupFirst t cols i := by
  rw [keptIdx]
  apply List.filter_congr
  intro k hk
  have hkn : k < t.rows.length := List.mem_range.1 hk
  have hmem : k ∈ dropSetOf (accFold (accOf fuzzSim 100 100 t cols)
      (pairsUpTo t.rows.length) []) ↔
      ∃ v, v < k ∧ rowKey t cols v = rowKey t cols k := by
    rw [mem_dropSetOf_accFold]
    constructor
    · rintro (⟨v, hv, hkn', hacc⟩ | ⟨w, hw, hwn, haccxw, u, hu, haccuw⟩)
      · refine ⟨v, hv, ?_⟩
        rw [accOf_100_eq_keyEq hwf hsub hne hfix (by omega) hkn'] at hacc
        exact of_decide_eq_true hacc
      · rw [accOf_100_eq_keyEq hwf hsub hne hfix hkn hwn] at haccxw
        rw [accOf_100_eq_keyEq hwf hsub hne hfix
          (show u < t.rows.length by omega) hwn] at haccuw
        exact ⟨u, hu,
          (of_decide_eq_true haccuw).trans (of_decide_eq_true haccxw).symm⟩
    · rintro ⟨v, hv, hkey⟩
      left
      refine ⟨v, hv, hkn, ?_⟩
      rw [accOf_100_eq_keyEq hwf hsub hne hfix (by omega) hkn]
      exact decide_eq_true hkey
  rcases hdup : dupFirst t cols k with _ | _
  · have hnot : k ∉ dropSetOf (accFold (accOf fuzzSim 100 100 t cols)
        (pairsUpTo t.rows.length) []) := by
      rw [hmem]
      rintro ⟨v, hv, hkey⟩
      have hcontra := dupFirst_iff.2 ⟨v, hv, hkey⟩
      rw [hdup] at hcontra
      cases hcontra
    simp [hnot]
  · obtain ⟨v, hv, hkey⟩ := dupFirst_iff.1 hdup
    have hin : k ∈ dropSetOf (accFold (accOf fuzzSim 100 100 t cols)
        (pairsUpTo t.rows.length) []) := hmem.2 ⟨v, hv, hkey⟩
    simp [hin]

theorem fuzzy_eq_of_clusters {sim t subset rrange clusters}
    (h : buildClusters sim (resolveRange rrange).1 (resolveRange rrange).2 t
      (resolveColumns t subset) (pairsUpTo t.rows.length) = .ok clusters) :
    handle_duplicate_values_fuzzy sim t subset rrange =
      .ok ⟨t.cols, (keptIdx t.rows.length (dropSetOf clusters)).map
        fun k => t.rows.getD k []⟩ := by
  rw [handle_duplicate_values_fuzzy]
  rw [h]

theorem fuzzy_of_le_one {sim : String → String → ℚ} {t : Table}
    {subset : Option (List String)} {rrange : Option (ℚ × ℚ)}
    (h : t.rows.length ≤ 1) :
    handle_duplicate_values_fuzzy sim t subset rrange = .ok t := by
  have hpairs : pairsUpTo t.rows.length = [] := by
    have h01 : t.rows.length = 0 ∨ t.rows.length = 1 := by omega
    rcases h01 with h0 | h1
    · rw [h0]
      rfl
    · rw [h1]
      rfl
  have hbc : buildClusters sim (resolveRange rrange).1 (resolveRange rrange).2 t
      (resolveColumns t subset) (pairsUpTo t.rows.length) = .ok [] := by
    rw [hpairs]
    rfl
  rw [fuzzy_eq_of_clusters hbc,
    show dropSetOf [] = (∅ : Finset ℕ) from rfl, keptIdx_empty_map]

theorem accOf_inverted {sim : String → String → ℚ} {lo hi : ℚ} {t : Table}
    {cols : List String} {i j : ℕ} (hinv : hi < lo) :
    accOf sim lo hi t cols i j = false := by
  rcases hpa : pairAvg sim t cols i j with e | q
  · simp [accOf, hpa]
  · simp only [accOf, hpa, decide_eq_false_iff_not]
    rintro ⟨h1, h2⟩
    linarith

theorem accOf_mono {sim : String → String → ℚ} {lo1 lo2 hi : ℚ} {t : Table}
    {cols : List String} {i j : ℕ} (hlo : lo2 ≤ lo1)
    (h : accOf sim lo1 hi t cols i j = true) :
    accOf sim lo2 hi t cols i j = true := by
  rcases hpa : pairAvg sim t cols i j with e | q
  · simp [accOf, hpa] at h
  · simp only [accOf, hpa, decide_eq_true_eq] at h ⊢
    exact ⟨by linarith [h.1], h.2⟩

theorem resolveColumns_eq_getD {t : Table} {subset : Option (List String)}
    (hvalid : subset = none ∨
      ∃ cs, subset = some cs ∧ cs ≠ [] ∧ ∀ c ∈ cs, c ∈ t.cols) :
    resolveColumns t subset = subset.getD t.cols := by
  rcases hvalid with rfl | ⟨cs, rfl, hne, _⟩
  · rfl
  · cases cs with
    | nil => exact absurd rfl hne
    | cons a l => rfl

theorem pairsUpTo_two_le {n : ℕ} (h : 2 ≤ n) :
    ∃ rest, pairsUpTo n = (0, 1) :: rest := by
  obtain ⟨m, rfl⟩ : ∃ m, n = m + 2 := ⟨n - 2, by omega⟩
  rw [pairsUpTo]
  have hr : List.range (m + 2) = 0 :: List.range' 1 (m + 1) := by
    rw [List.range_eq_range']
    rfl
  rw [hr, List.flatMap_cons]
  have hr2 : List.range' (0 + 1) (m + 2 - (0 + 1)) = 1 :: List.range' 2 m := by
    rfl
  rw [hr2, List.map_cons, List.cons_append]
  exact ⟨_, rfl⟩

theorem fuzzy_eq_of_error {sim : String → String → ℚ} {t : Table}
    {subset : Option (List String)} {rrange : Option (ℚ × ℚ)} {e : String}
    (h : buildClusters sim (resolveRange rrange).1 (resolveRange rrange).2 t
      (resolveColumns t subset) (pairsUpTo t.rows.length) = .error e) :
    handle_duplicate_values_fuzzy sim t subset rrange = .error e := by
  rw [handle_duplicate_values_fuzzy]
  rw [h]

theorem fuzzy_some_eq {sim : String → String → ℚ} {t : Table}
    {subset : Option (List String)} {lo hi : ℚ} :
    handle_duplicate_values_fuzzy sim t subset (some (lo, hi)) =
      match buildClusters sim lo hi t (resolveColumns t subset)
          (pairsUpTo t.rows.length) with
      | .error e => .error e
      | .ok clusters => .ok ⟨t.cols,
          (keptIdx t.rows.length (dropSetOf clusters)).map
            fun k => t.rows.getD k []⟩ := rfl

end HandleDup

unseal Rat.inv Rat.mul Rat.add Rat.sub

namespace HandleDup

/-! ## The claims

The running counterexample table: one comparison column, five rows whose
pairwise normalized indel similarities are exactly
`sim 0 4 = sim 1 2 = sim 1 4 = 75` and at most `50` otherwise, so that with
acceptance range `(75, 75)` the accepted pairs in enumeration order are
`(0,4), (1,2), (1,4)`: the pair `(1,4)` bridges the two existing clusters
`{0,4}` and `{1,2}`, copying `1` into the first of them. -/

/-- Concrete five-row table used by the counterexamples. -/
def exT : Table := ⟨["name"], [["xabc"], ["bcdy"], ["bzdy"], ["pqrs"], ["abcd"]]⟩

/-- The cluster list the fuzzy grouper builds on `exT` with range `(75, 75)`. -/
def exClusters : List (Finset ℕ) :=
  (buildClusters fuzzSim 75 75 exT exT.cols (pairsUpTo 5)).toOption.getD []

/-- Claim C1, counterexample: on `exT` with range `(75, 75)` the grouper
builds two clusters; the second one contains `1` and `2` and its smallest
index is `1`, yet `1` lands in the drop set (it is a non-minimal member of
the first cluster `{0, 1, 4}`), so the row with the smallest original
index of that cluster is absent from the output: only rows `0` and `3`
survive. -/
theorem C1_smallest_index_dropped :
    exClusters.length = 2 ∧
    clusterMin (exClusters.getD 1 ∅) = 1 ∧
    (1 : ℕ) ∈ exClusters.getD 1 ∅ ∧
    (1 : ℕ) ∈ dropSetOf exClusters ∧
    handle_duplicate_values_fuzzy fuzzSim exT none (some (75, 75)) =
      .ok ⟨["name"], [["xabc"], ["pqrs"]]⟩ := by
  refine ⟨by decide, by decide, by decide, by decide, by decide⟩

/-- Claim C1 (amended): for every cluster built by the fuzzy grouper,
every member other than the cluster's smallest index is absent from the
output; the smallest index itself is present in the output whenever the
built clusters are pairwise disjoint.  (Unconditionally retaining the
minimum fails, because an accepted pair bridging two clusters copies an
index into an earlier cluster, where it may not be minimal — see
`C1_smallest_index_dropped`.) -/
theorem C1_representative_retention {sim : String → String → ℚ} {t : Table}
    {subset : Option (List String)} {rrange : Option (ℚ × ℚ)}
    {clusters : List (Finset ℕ)}
    (h : buildClusters sim (resolveRange rrange).1 (resolveRange rrange).2 t
      (resolveColumns t subset) (pairsUpTo t.rows.length) = .ok clusters) :
    handle_duplicate_values_fuzzy sim t subset rrange = .ok ⟨t.cols,
      (keptIdx t.rows.length (dropSetOf clusters)).map
        fun k => t.rows.getD k []⟩ ∧
    ∀ c ∈ clusters,
      (∀ x ∈ c, x ≠ clusterMin c →
        x ∉ keptIdx t.rows.length (dropSetOf clusters)) ∧
      (clusters.Pairwise Disjoint →
        clusterMin c ∈ keptIdx t.rows.length (dropSetOf clusters)) := by
  refine ⟨fuzzy_eq_of_clusters h, ?_⟩
  obtain ⟨hall, hacc⟩ := buildClusters_ok h
  subst hacc
  intro c hc
  have hcard : 2 ≤ c.card := by
    refine accFold_card _ _ ?_ (by simp) c hc
    intro p hp
    have hb := mem_pairsUpTo.1 hp
    omega
  have hbound : ∀ x ∈ c, x < t.rows.length := by
    refine accFold_bound _ _ ?_ (by simp) c hc
    intro p hp
    have hb := mem_pairsUpTo.1 hp
    exact ⟨by omega, hb.2⟩
  have hcne : c.Nonempty := Finset.card_pos.1 (by omega)
  obtain ⟨hminmem, hminle⟩ := clusterMin_spec hcne
  constructor
  · intro x hx hxmin hmem
    exact (mem_keptIdx.1 hmem).2 (mem_dropSetOf.2 ⟨c, hc, hx, hxmin⟩)
  · intro hdisj
    rw [mem_keptIdx]
    refine ⟨hbound _ hminmem, ?_⟩
    intro hds
    obtain ⟨c', hc', hmem', hne'⟩ := mem_dropSetOf.1 hds
    by_cases hcc : c = c'
    · subst hcc
      exact hne' rfl
    · have hd : Disjoint c c' :=
        List.Pairwise.forall (fun _ _ hd => hd.symm) hdisj hc hc' hcc
      exact Finset.disjoint_left.1 hd hminmem hmem'

/-- Witness for C1 (amended), at the concrete table `exT`: index `4` is a
non-minimal member of the first built cluster and indeed absent from the
retained indices. -/
theorem C1_witness :
    (4 : ℕ) ∉ keptIdx 5 (dropSetOf exClusters) := by
  have h := (@C1_representative_retention fuzzSim exT none (some (75, 75))
    exClusters (by rfl)).2
  have hlen : 0 < exClusters.length := by decide
  have hmem : exClusters.getD 0 ∅ ∈ exClusters := by
    rw [List.getD_eq_getElem _ _ hlen]
    exact List.getElem_mem _
  exact (h (exClusters.getD 0 ∅) hmem).1 4 (by decide) (by decide)

/-- Claim C2, counterexample: on `exT` with range `(75, 75)` the index `1`
ends up in both built clusters simultaneously, so the clusters are not
pairwise disjoint during (or after) construction. -/
theorem C2_overlapping_clusters :
    (1 : ℕ) ∈ exClusters.getD 0 ∅ ∧
    (1 : ℕ) ∈ exClusters.getD 1 ∅ ∧
    exClusters.length = 2 ∧
    ¬ exClusters.Pairwise Disjoint := by
  refine ⟨by decide, by decide, by decide, by decide⟩

/-- Claim C2 (amended): one step of cluster construction preserves
pairwise disjointness provided the accepted pair's endpoints do not lie in
two distinct existing clusters; in particular a newly created cluster is
disjoint from all existing ones.  (Unconditional disjointness fails: a
bridging accepted pair makes two clusters overlap — see
`C2_overlapping_clusters`.) -/
theorem C2_disjoint_preservation (i j : ℕ) (L : List (Finset ℕ))
    (hdisj : L.Pairwise Disjoint)
    (hnb : ¬ ∃ c₁ ∈ L, ∃ c₂ ∈ L, c₁ ≠ c₂ ∧ i ∈ c₁ ∧ j ∈ c₂) :
    (addPair i j L).Pairwise Disjoint := by
  rcases addPair_cases i j L with hNF | ⟨L₁, c, L₂, rfl, hclean, hc⟩
  · rw [addPair_of_not_found hNF, List.pairwise_append]
    refine ⟨hdisj, by simp, ?_⟩
    intro a ha b hb
    have hb' : b = insert i {j} := by simpa using hb
    subst hb'
    obtain ⟨hi, hj⟩ := hNF a ha
    rw [Finset.disjoint_insert_right, Finset.disjoint_singleton_right]
    exact ⟨hi, hj⟩
  · rw [addPair_of_split hclean hc]
    rw [List.pairwise_append] at hdisj ⊢
    obtain ⟨hd1, hd2, hd12⟩ := hdisj
    rw [List.pairwise_cons] at hd2 ⊢
    obtain ⟨hcL₂, hdL₂⟩ := hd2
    have hDcd : ∀ d, d ∈ L₁ ∨ d ∈ L₂ → Disjoint c d := by
      intro d hd
      rcases hd with hd | hd
      · exact (hd12 d hd c (by simp)).symm
      · exact hcL₂ d hd
    have hkey : ∀ d, d ∈ L₁ ∨ d ∈ L₂ → i ∉ d ∧ j ∉ d := by
      intro d hd
      have hDis := hDcd d hd
      by_cases hdc : d = c
      · subst hdc
        have hdempty : d = ∅ := disjoint_self.1 hDis
        subst hdempty
        simp
      · have hdmem : d ∈ L₁ ++ c :: L₂ := by
          rcases hd with hd | hd
          · simp [hd]
          · simp [hd]
        constructor
        · intro hid
          rcases hc with hic | hjc
          · exact Finset.disjoint_left.1 hDis hic hid
          · exact hnb ⟨d, hdmem, c, by simp, hdc, hid, hjc⟩
        · intro hjd
          rcases hc with hic | hjc
          · exact hnb ⟨c, by simp, d, hdmem, fun hcd => hdc hcd.symm, hic, hjd⟩
          · exact Finset.disjoint_left.1 hDis hjc hjd
    refine ⟨hd1, ⟨?_, hdL₂⟩, ?_⟩
    · intro d hd
      obtain ⟨hi, hj⟩ := hkey d (.inr hd)
      rw [Finset.disjoint_insert_left, Finset.disjoint_insert_left]
      exact ⟨hi, hj, hDcd d (.inr hd)⟩
    · intro a ha b hb
      rcases List.mem_cons.1 hb with rfl | hb
      · obtain ⟨hi, hj⟩ := hclean a ha
        rw [Finset.disjoint_insert_right, Finset.disjoint_insert_right]
        exact ⟨hi, hj, (hDcd a (.inl ha)).symm⟩
      · exact hd12 a ha b (by simp [hb])

/-- Witness for C2 (amended): inserting the accepted pair `(1, 4)` into
two disjoint clusters neither of which holds `1` while one holds `4`
keeps the collection pairwise disjoint. -/
theorem C2_witness : (addPair 1 4 [{0, 4}, {2, 3}]).Pairwise Disjoint := by
  apply C2_disjoint_preservation
  · decide
  · rintro ⟨c₁, h₁, c₂, h₂, hne, hi, hj⟩
    rcases List.mem_cons.1 h₁ with rfl | h₁
    · exact absurd hi (by decide)
    rcases List.mem_cons.1 h₁ with rfl | h₁
    · exact absurd hi (by decide)
    · cases h₁

/-- Claim C3 (confirmed): on a zero-row table both the exact remover and
the fuzzy grouper return the table unchanged — zero rows, no error — for
every column subset (valid or not) and every ratio range.  (pandas guards
`drop_duplicates`/`duplicated` with an emptiness check before validating
the subset, and the fuzzy pair loop is empty.) -/
theorem C3_empty_table_no_error (sim : String → String → ℚ) (t : Table)
    (subset : Option (List String)) (rrange : Option (ℚ × ℚ))
    (h : t.rows = []) :
    handle_duplicate_values_fuzzy sim t subset rrange = .ok t ∧
    handle_duplicate_values_drop t subset = .ok t := by
  constructor
  · exact fuzzy_of_le_one (by simp [h])
  · rw [handle_duplicate_values_drop, if_pos (.inl (by simp [h]))]

/-- Witness for C3: a zero-row table with a column subset naming a column
that does not exist, and an inverted range. -/
theorem C3_witness :
    handle_duplicate_values_fuzzy fuzzSim ⟨["a"], []⟩ (some ["nope"])
      (some (10, 5)) = .ok ⟨["a"], []⟩ ∧
    handle_duplicate_values_drop ⟨["a"], []⟩ (some ["nope"]) =
      .ok ⟨["a"], []⟩ :=
  C3_empty_table_no_error fuzzSim ⟨["a"], []⟩ (some ["nope"]) (some (10, 5)) rfl

/-- Claim C4, counterexample: on a two-row table with no columns the
resolved comparison column set is empty, and the fuzzy grouper raises
`ZeroDivisionError` (the average `sum([])/len([])` divides by zero)
instead of returning the table unchanged. -/
theorem C4_zero_division :
    resolveColumns ⟨[], [[], []]⟩ none = [] ∧
    handle_duplicate_values_fuzzy fuzzSim ⟨[], [[], []]⟩ none none =
      .error "ZeroDivisionError" := by
  refine ⟨by decide, by decide⟩

/-- Claim C4 (amended): when the resolved comparison column set is empty,
the fuzzy grouper returns the table unchanged only while there is at most
one row (no pair is ever compared); with two or more rows the very first
pair comparison averages an empty ratio list and raises
`ZeroDivisionError`. -/
theorem C4_empty_columns (sim : String → String → ℚ) (t : Table)
    (subset : Option (List String)) (rrange : Option (ℚ × ℚ))
    (hres : resolveColumns t subset = []) :
    (t.rows.length ≤ 1 →
      handle_duplicate_values_fuzzy sim t subset rrange = .ok t) ∧
    (2 ≤ t.rows.length →
      handle_duplicate_values_fuzzy sim t subset rrange =
        .error "ZeroDivisionError") := by
  constructor
  · intro h
    exact fuzzy_of_le_one h
  · intro h
    obtain ⟨rest, hrest⟩ := pairsUpTo_two_le h
    have hpa : pairAvg sim t (resolveColumns t subset) 0 1 =
        .error "ZeroDivisionError" := by
      rw [hres]
      rfl
    apply fuzzy_eq_of_error
    rw [buildClusters, hrest, List.foldlM_cons, stepPair_eq_error hpa, error_bind]

/-- Witness for C4 (amended): the one-row no-column table is returned
unchanged. -/
theorem C4_witness :
    handle_duplicate_values_fuzzy fuzzSim ⟨[], [[]]⟩ none none =
      .ok ⟨[], [[]]⟩ :=
  (C4_empty_columns fuzzSim ⟨[], [[]]⟩ none none rfl).1 (by decide)

/-- Claim C5 (confirmed): for an accepted pair `(i, j)`, splitting the
cluster list at the first cluster containing `i` or `j` shows that exactly
that cluster receives both indices while every other cluster — before or
after it — is left untouched (so two pre-existing clusters are never
merged), and when no cluster contains `i` or `j` a new cluster `{i, j}`
is appended at the end. -/
theorem C5_first_match_insertion (i j : ℕ) (L : List (Finset ℕ))
    (hne : L ≠ []) :
    ((∀ c ∈ L, i ∉ c ∧ j ∉ c) → addPair i j L = L ++ [insert i {j}]) ∧
    (∀ L₁ c L₂, L = L₁ ++ c :: L₂ → (∀ c' ∈ L₁, i ∉ c' ∧ j ∉ c') →
      (i ∈ c ∨ j ∈ c) →
      addPair i j L = L₁ ++ insert i (insert j c) :: L₂) :=
  ⟨fun h => addPair_of_not_found h,
   fun L₁ c L₂ hL h₁ hc => hL ▸ addPair_of_split h₁ hc⟩

/-- Witness for C5: the pair `(1, 4)` is inserted into the first cluster
containing one of its endpoints, `{0, 4}`, and the second cluster `{1, 2}`
is not merged into it even though it contains `1`. -/
theorem C5_witness : addPair 1 4 [{0, 4}, {1, 2}] = [{0, 1, 4}, {1, 2}] := by
  have h := (C5_first_match_insertion 1 4 [{0, 4}, {1, 2}] (by simp)).2
    [] {0, 4} [{1, 2}] rfl (by simp) (by decide)
  rw [h]
  decide

/-- Claim C6, counterexample: with an inverted range the fuzzy grouper
still evaluates every pair's similarity first, so a subset naming a
missing column raises `KeyError` instead of quietly returning the table
unchanged. -/
theorem C6_inverted_range_raises :
    (40 : ℚ) < 50 ∧
    handle_duplicate_values_fuzzy fuzzSim ⟨["a"], [["x"], ["y"]]⟩
      (some ["b"]) (some (50, 40)) = .error "KeyError" := by
  refine ⟨by norm_num, by decide⟩

/-- Claim C6 (amended): with `low > high` no pair is ever accepted and the
grouper returns the original table unchanged without error, provided the
similarity computation itself cannot raise: either the table has at most
one row (no pair is compared), or the table is well-formed with a
non-empty resolved comparison column set all of whose columns exist.
(Otherwise a `KeyError`/`ZeroDivisionError` precedes the range check —
see `C6_inverted_range_raises`.) -/
theorem C6_inverted_range_noop (sim : String → String → ℚ) (t : Table)
    (subset : Option (List String)) (lo hi : ℚ) (hinv : hi < lo)
    (hok : t.rows.length ≤ 1 ∨ (Wf t ∧
      (∀ c ∈ resolveColumns t subset, c ∈ t.cols) ∧
      resolveColumns t subset ≠ [])) :
    handle_duplicate_values_fuzzy sim t subset (some (lo, hi)) = .ok t := by
  rcases hok with hle | ⟨hwf, hsub, hne⟩
  · exact fuzzy_of_le_one hle
  · rw [fuzzy_eq_accFold hwf hsub hne]
    have hfalse : ∀ p ∈ pairsUpTo t.rows.length,
        accOf sim (resolveRange (some (lo, hi))).1
          (resolveRange (some (lo, hi))).2 t (resolveColumns t subset)
          p.1 p.2 = false := fun p _ => accOf_inverted hinv
    rw [accFold_all_false _ _ hfalse,
      show dropSetOf [] = (∅ : Finset ℕ) from rfl, keptIdx_empty_map]

/-- Witness for C6 (amended): `exT` with range `(50, 40)` comes back
unchanged. -/
theorem C6_witness :
    handle_duplicate_values_fuzzy fuzzSim exT none (some (50, 40)) =
      .ok exT :=
  C6_inverted_range_noop fuzzSim exT none 50 40 (by norm_num)
    (.inr ⟨by decide, by decide, by decide⟩)

/-- Claim C7 (confirmed): with range `(100, 100)` the fuzzy grouper — run
with the normalized indel similarity, on a well-formed table with a valid
non-empty comparison column set whose cell values are already normalized
(lowercased and trimmed) — produces exactly the output of the exact
remover on the same column subset: both keep precisely the first
occurrence of each value combination over the comparison columns. -/
theorem C7_exact_range_matches_drop (t : Table)
    (subset : Option (List String)) (hwf : Wf t) (hcols : t.cols ≠ [])
    (hvalid : subset = none ∨ ∃ cs, subset = some cs ∧ cs ≠ [] ∧
      ∀ c ∈ cs, c ∈ t.cols)
    (hfix : ∀ i, i < t.rows.length → ∀ c ∈ resolveColumns t subset,
      normalize (cellD t i c) = cellD t i c) :
    ∃ u, handle_duplicate_values_fuzzy fuzzSim t subset
        (some (100, 100)) = .ok u ∧
      handle_duplicate_values_drop t subset = .ok u ∧
      u.rows = ((List.range t.rows.length).filter
          fun i => !dupFirst t ((subset.getD t.cols)) i).map
        fun k => t.rows.getD k [] := by
  have hsub : ∀ c ∈ resolveColumns t subset, c ∈ t.cols := by
    rcases hvalid with rfl | ⟨cs, rfl, hcsne, hcs⟩
    · intro c hc
      simpa [resolveColumns] using hc
    · cases cs with
      | nil => exact absurd rfl hcsne
      | cons a l => exact fun c hc => hcs c hc
  have hne : resolveColumns t subset ≠ [] := by
    rcases hvalid with rfl | ⟨cs, rfl, hcsne, hcs⟩
    · simpa [resolveColumns] using hcols
    · cases cs with
      | nil => exact absurd rfl hcsne
      | cons a l => exact List.cons_ne_nil a l
  have hrc : resolveColumns t subset = subset.getD t.cols :=
    resolveColumns_eq_getD hvalid
  refine ⟨⟨t.cols, ((List.range t.rows.length).filter
      fun i => !dupFirst t (subset.getD t.cols) i).map
      fun k => t.rows.getD k []⟩, ?_, ?_, rfl⟩
  · have hfz := @fuzzy_eq_accFold fuzzSim t subset (some (100, 100))
      hwf hsub hne
    have hfz' : handle_duplicate_values_fuzzy fuzzSim t subset
        (some (100, 100)) = .ok ⟨t.cols,
      (keptIdx t.rows.length (dropSetOf
        (accFold (accOf fuzzSim 100 100 t (resolveColumns t subset))
          (pairsUpTo t.rows.length) []))).map
        fun k => t.rows.getD k []⟩ := hfz
    rw [hfz', fuzzy100_kept_eq hwf hsub hne hfix, hrc]
  · by_cases hrows : t.rows = []
    · rw [handle_duplicate_values_drop, if_pos (.inl (by simp [hrows]))]
      simp only [hrows, List.length_nil, List.range_zero, List.filter_nil,
        List.map_nil]
      have hteq : (⟨t.cols, []⟩ : Table) = t := by
        conv_rhs => rw [← table_eta t]
        rw [hrows]
      rw [hteq]
    · rw [drop_eq_keepFirst hrows hcols hvalid]

/-- Witness for C7: a three-row one-column table with two identical rows;
both paths drop the second row and keep rows `0` and `2`. -/
theorem C7_witness :
    handle_duplicate_values_fuzzy fuzzSim
        ⟨["name"], [["ab"], ["ab"], ["cd"]]⟩ none (some (100, 100)) =
      .ok ⟨["name"], [["ab"], ["cd"]]⟩ ∧
    handle_duplicate_values_drop ⟨["name"], [["ab"], ["ab"], ["cd"]]⟩ none =
      .ok ⟨["name"], [["ab"], ["cd"]]⟩ := by
  obtain ⟨u, hf, hd, hu⟩ := C7_exact_range_matches_drop
    ⟨["name"], [["ab"], ["ab"], ["cd"]]⟩ none (by decide) (by decide)
    (.inl rfl) (by decide)
  have hfe : handle_duplicate_values_fuzzy fuzzSim
      ⟨["name"], [["ab"], ["ab"], ["cd"]]⟩ none (some (100, 100)) =
        .ok ⟨["name"], [["ab"], ["cd"]]⟩ := by decide
  rw [hfe] at hf
  cases hf
  exact ⟨hfe, hd⟩

/-- Claim C8 (confirmed): lowering the low bound of the acceptance range
(for a fixed upper bound, table and column subset) never decreases the
number of dropped rows: every pair accepted at the tighter range is still
accepted at the wider one, the drop set only grows, and the retained row
count only shrinks. -/
theorem C8_range_monotonicity (sim : String → String → ℚ) (t : Table)
    (subset : Option (List String)) (lo1 lo2 hi : ℚ) (u1 u2 : Table)
    (hlo : lo2 ≤ lo1)
    (h1 : handle_duplicate_values_fuzzy sim t subset (some (lo1, hi)) =
      .ok u1)
    (h2 : handle_duplicate_values_fuzzy sim t subset (some (lo2, hi)) =
      .ok u2) :
    t.rows.length - u1.rows.length ≤ t.rows.length - u2.rows.length := by
  rw [fuzzy_some_eq] at h1 h2
  rcases hb1 : buildClusters sim lo1 hi t (resolveColumns t subset)
      (pairsUpTo t.rows.length) with e | cl1
  · rw [hb1] at h1
    cases h1
  rcases hb2 : buildClusters sim lo2 hi t (resolveColumns t subset)
      (pairsUpTo t.rows.length) with e | cl2
  · rw [hb2] at h2
    cases h2
  rw [hb1] at h1
  rw [hb2] at h2
  cases h1
  cases h2
  obtain ⟨hall1, hacc1⟩ := buildClusters_ok hb1
  obtain ⟨hall2, hacc2⟩ := buildClusters_ok hb2
  subst hacc1
  subst hacc2
  have hsubset : dropSetOf (accFold
        (accOf sim lo1 hi t (resolveColumns t subset))
        (pairsUpTo t.rows.length) []) ⊆
      dropSetOf (accFold (accOf sim lo2 hi t (resolveColumns t subset))
        (pairsUpTo t.rows.length) []) := by
    intro x hx
    have hmono : ∀ a b : ℕ,
        accOf sim lo1 hi t (resolveColumns t subset) a b = true →
        accOf sim lo2 hi t (resolveColumns t subset) a b = true :=
      fun a b h => accOf_mono hlo h
    rcases mem_dropSetOf_accFold.1 hx with ⟨v, hvx, hxn, hv⟩ |
      ⟨w, hxw, hwn, hxwa, u, hux, hu⟩
    · exact mem_dropSetOf_accFold.2 (.inl ⟨v, hvx, hxn, hmono _ _ hv⟩)
    · exact mem_dropSetOf_accFold.2
        (.inr ⟨w, hxw, hwn, hmono _ _ hxwa, u, hux, hmono _ _ hu⟩)
  simp only [List.length_map]
  exact Nat.sub_le_sub_left (keptIdx_anti hsubset) t.rows.length

/-- Witness for C8: a two-row table of identical strings; at range
`(90, 100)` and at the widened `(80, 100)` one row is dropped each time,
and `2 - 1 ≤ 2 - 1`. -/
theorem C8_witness :
    (2 : ℕ) - 1 ≤ 2 - 1 :=
  C8_range_monotonicity fuzzSim ⟨["a"], [["ab"], ["ab"]]⟩ none 90 80 100
    ⟨["a"], [["ab"]]⟩ ⟨["a"], [["ab"]]⟩ (by norm_num) (by decide) (by decide)

/-- Claim C9 (confirmed): whenever the fuzzy grouper returns a table, its
rows form a sublist of the input rows (retained rows keep their original
relative order) and the columns are unchanged. -/
theorem C9_order_preservation (sim : String → String → ℚ) (t : Table)
    (subset : Option (List String)) (rrange : Option (ℚ × ℚ)) (u : Table)
    (h : handle_duplicate_values_fuzzy sim t subset rrange = .ok u) :
    u.rows.Sublist t.rows ∧ u.cols = t.cols := by
  rcases hb : buildClusters sim (resolveRange rrange).1
      (resolveRange rrange).2 t (resolveColumns t subset)
      (pairsUpTo t.rows.length) with e | cl
  · rw [fuzzy_eq_of_error hb] at h
    cases h
  · rw [fuzzy_eq_of_clusters hb] at h
    cases h
    refine ⟨?_, rfl⟩
    have hsl := (keptIdx_sublist t.rows.length (dropSetOf cl)).map
      fun k => t.rows.getD k []
    rwa [map_getD_range t.rows] at hsl

/-- Witness for C9: the two retained rows of `exT` at range `(75, 75)`
are a sublist of `exT.rows`, and the column list is preserved. -/
theorem C9_witness :
    ([["xabc"], ["pqrs"]] : List Row).Sublist exT.rows ∧
    (["name"] : List String) = exT.cols :=
  C9_order_preservation fuzzSim exT none (some (75, 75))
    ⟨["name"], [["xabc"], ["pqrs"]]⟩ (by decide)

/-- Claim C10 (confirmed): every cluster the grouper builds from pairs of
distinct indices has at least two members, and whenever some enumerated
pair's average similarity is accepted (falls inside the range), the
output has strictly fewer rows than the input. -/
theorem C10_cluster_card_and_strict_drop (sim : String → String → ℚ)
    (t : Table) (subset : Option (List String)) (lo hi : ℚ) :
    (∀ pairs clusters, (∀ p ∈ pairs, p.1 ≠ p.2) →
      buildClusters sim lo hi t (resolveColumns t subset) pairs =
        .ok clusters →
      ∀ c ∈ clusters, 2 ≤ c.card) ∧
    (∀ u, handle_duplicate_values_fuzzy sim t subset (some (lo, hi)) =
        .ok u →
      (∃ p ∈ pairsUpTo t.rows.length, ∃ q,
        pairAvg sim t (resolveColumns t subset) p.1 p.2 = .ok q ∧
        lo ≤ q ∧ q ≤ hi) →
      u.rows.length < t.rows.length) := by
  constructor
  · intro pairs clusters hne hbc c hc
    obtain ⟨hall, hacc⟩ := buildClusters_ok hbc
    subst hacc
    exact accFold_card _ _ hne (by simp) c hc
  · intro u hu ⟨p, hp, q, hq, hql, hqh⟩
    rw [fuzzy_some_eq] at hu
    rcases hb : buildClusters sim lo hi t (resolveColumns t subset)
        (pairsUpTo t.rows.length) with e | cl
    · rw [hb] at hu
      cases hu
    rw [hb] at hu
    cases hu
    obtain ⟨hall, hacc⟩ := buildClusters_ok hb
    subst hacc
    have hpacc : accOf sim lo hi t (resolveColumns t subset) p.1 p.2 =
        true := by
      simp only [accOf, hq]
      exact decide_eq_true ⟨hql, hqh⟩
    have hnenil : accFold (accOf sim lo hi t (resolveColumns t subset))
        (pairsUpTo t.rows.length) [] ≠ [] :=
      accFold_ne_nil _ _ (.inl ⟨p, hp, hpacc⟩)
    obtain ⟨c, hc⟩ := List.exists_mem_of_ne_nil _ hnenil
    have hple := mem_pairsUpTo.1 hp
    have hcard : 2 ≤ c.card := by
      refine accFold_card _ _ ?_ (by simp) c hc
      intro p' hp'
      have := mem_pairsUpTo.1 hp'
      omega
    have hbound : ∀ x ∈ c, x < t.rows.length := by
      refine accFold_bound _ _ ?_ (by simp) c hc
      intro p' hp'
      have := mem_pairsUpTo.1 hp'
      exact ⟨by omega, this.2⟩
    have hcne : c.Nonempty := Finset.card_pos.1 (by omega)
    obtain ⟨x, hx, hxne⟩ : ∃ x ∈ c, x ≠ clusterMin c := by
      obtain ⟨a, ha, b, hb, hab⟩ :=
        Finset.one_lt_card.1 (show 1 < c.card by omega)
      by_cases hac : a = clusterMin c
      · exact ⟨b, hb, fun hbc' => hab (hac.trans hbc'.symm)⟩
      · exact ⟨a, ha, hac⟩
    have hxdrop : x ∈ dropSetOf (accFold
        (accOf sim lo hi t (resolveColumns t subset))
        (pairsUpTo t.rows.length) []) :=
      mem_dropSetOf.2 ⟨c, hc, hx, hxne⟩
    simp only [List.length_map]
    exact keptIdx_length_lt (hbound x hx) hxdrop

/-- Witness for C10: on a two-row table of identical strings with range
`(90, 100)` the single enumerated pair averages `100` and is accepted, so
the output has strictly fewer rows: one instead of two. -/
theorem C10_witness : (1 : ℕ) < 2 :=
  (C10_cluster_card_and_strict_drop fuzzSim ⟨["a"], [["ab"], ["ab"]]⟩
      none 90 100).2 ⟨["a"], [["ab"]]⟩ (by decide)
    ⟨(0, 1), by decide, 100, by decide, by norm_num, by norm_num⟩

end HandleDup
